import Mathlib

/-!
# Verification of the seisplotjs Segment/Trace model (src/src/seismogram.js)

Shallow embedding of `SeismogramSegment` and `Seismogram` from
`src/src/seismogram.js`.  Conventions of the embedding:

* moment.js instants are modelled as exact rationals (seconds since an
  arbitrary epoch).  moment stores integer milliseconds and truncates
  fractional additions; that machine-level rounding is idealized away, so
  `diff` is exact subtraction (scaled to milliseconds) and `add` is exact
  addition.
* JS typed arrays (`Int32Array`, `Float32Array`, `Float64Array`) are
  modelled as a width tag plus a list of rationals.  Storing a value into a
  typed array coerces it (`storeCast`): ToInt32 truncation/wrapping for
  `Int32Array`, round-to-nearest-even onto the float32 grid for
  `Float32Array` (overflow to infinity, below, is not modelled: the grid is
  extended past 2^128), identity for `Float64Array`.
* Methods that throw are modelled with `Except String`; methods returning
  `null` with `Option`.
* Mutating methods are modelled by explicit state passing: a getter that
  fills a cache returns the value together with the updated object.
-/

/-- The numeric width of a JS typed sample array:
`Int32Array`, `Float32Array` or `Float64Array`. -/
inductive Width where
  | i32
  | f32
  | f64
deriving DecidableEq, Repr

/-- Truncation toward zero of a rational, as JS `ToInteger` on a number. -/
def ratTrunc (q : ℚ) : ℤ :=
  if q < 0 then -(Int.floor (-q)) else Int.floor q

/-- JS `ToInt32`: truncate toward zero, wrap modulo 2^32 into the signed
32-bit range.  This is what storing a number into an `Int32Array` does. -/
def toInt32 (q : ℚ) : ℚ :=
  let m : ℤ := (ratTrunc q) % 4294967296
  ((if m < 2147483648 then m else m - 4294967296 : ℤ) : ℚ)

/-- Floor of log base 2 of a positive rational (`⌊log2 q⌋`). -/
def ratFloorLog2 (q : ℚ) : ℤ :=
  let e0 : ℤ := (Nat.log2 q.num.toNat : ℤ) - (Nat.log2 q.den : ℤ)
  if q < 2 ^ e0 then e0 - 1 else if q < 2 ^ (e0 + 1) then e0 else e0 + 1

/-- Round a rational to the nearest integer, ties to even. -/
def roundHalfEven (x : ℚ) : ℤ :=
  let f := Int.floor x
  let r := x - f
  if r < 1/2 then f else if 1/2 < r then f + 1 else if f % 2 = 0 then f else f + 1

/-- Rounding onto the float32 grid (round to nearest, ties to even), as JS
`Math.fround` / a `Float32Array` store.  Subnormals are modelled exactly;
overflow to infinity is not (the exponent grid extends past 2^128), which
no claim of this development exercises. -/
def roundF32 (q : ℚ) : ℚ :=
  if q = 0 then 0
  else
    let a := |q|
    let e := max (ratFloorLog2 a) (-126)
    let ulp : ℚ := 2 ^ (e - 23)
    let m := roundHalfEven (a / ulp)
    (if q < 0 then -1 else 1) * (m : ℚ) * ulp

/-- Coercion applied by a JS typed-array element store, per array width. -/
def storeCast : Width → ℚ → ℚ
  | .i32 => toInt32
  | .f32 => roundF32
  | .f64 => fun q => q

/-- A JS typed sample array: its numeric width and its elements. -/
structure SampleArr where
  width : Width
  data : List ℚ
deriving DecidableEq, Repr

/-- A `seedcodec.EncodedDataSegment` handle: the declared compression type
and sample count, and the sample values its `decode()` method yields. -/
structure EncodedDataSegment where
  compressionType : ℕ
  numSamples : ℕ
  decodeData : List ℚ
deriving DecidableEq, Repr

/-- Modelled from the spec: the `seedcodec` encoding code for 32-bit float
payloads (spec section 3 lists the encodings; the numeric value is the
standard miniSEED code, only its distinctness matters here). -/
def FLOAT : ℕ := 4

/-- Modelled from the spec: the `seedcodec` encoding code for 64-bit float
payloads. -/
def DOUBLE : ℕ := 5

/-- The mutable state of a `SeismogramSegment`: decoded samples xor encoded
chunks, sample rate (Hz), start time, the cached end time with the sample
count it was computed for, and the identity fields. -/
structure SeismogramSegment where
  _y : Option SampleArr
  _compressed : Option (List EncodedDataSegment)
  _sampleRate : ℚ
  _startTime : ℚ
  _endTime_cache : Option ℚ
  _endTime_cache_numPoints : ℕ
  networkCode : String
  stationCode : String
  locationCode : String
  channelCode : String
  yUnit : String
deriving DecidableEq, Repr

/-- A placeholder segment, used only to model JS indexing into a list that
the class invariant keeps nonempty. -/
def dfltSeg : SeismogramSegment :=
  { _y := some ⟨Width.f64, []⟩, _compressed := none, _sampleRate := 1,
    _startTime := 0, _endTime_cache := none, _endTime_cache_numPoints := 0,
    networkCode := "", stationCode := "", locationCode := "",
    channelCode := "", yUnit := "count" }

namespace SeismogramSegment

/-- Getter numPoints: length of the decoded array if present (JS truthiness:
any non-null typed array, even empty), else the sum of the encoded chunks'
declared sample counts, else 0. -/
def numPoints (s : SeismogramSegment) : ℕ :=
  match s._y with
  | some a => a.data.length
  | none =>
    match s._compressed with
    | some cs => cs.foldl (fun acc c => acc + c.numSamples) 0
    | none => 0

/-- Method isEncoded: false if `_y` is a nonempty array, else true iff
`_compressed` is a nonempty list. -/
def isEncoded (s : SeismogramSegment) : Bool :=
  if (match s._y with | some a => decide (a.data.length > 0) | none => false) then false
  else if (match s._compressed with | some cs => decide (cs.length > 0) | none => false) then true
  else false

/-- Method timeOfSample: start time plus `i / sampleRate` seconds. -/
def timeOfSample (s : SeismogramSegment) (i : ℤ) : ℚ :=
  s._startTime + (i : ℚ) / s._sampleRate

/-- The value the `endTime` getter computes when its cache is invalid:
`timeOfSample(numPoints - 1)`. -/
def endTimePure (s : SeismogramSegment) : ℚ :=
  timeOfSample s ((numPoints s : ℤ) - 1)

/-- The `endTime` getter: recompute and fill the cache when it is absent or
was computed for a different sample count, else return the cached instant.
Returns the value together with the (possibly cache-updated) segment. -/
def endTimeGet (s : SeismogramSegment) : ℚ × SeismogramSegment :=
  match s._endTime_cache with
  | none =>
    let np := numPoints s
    let t := timeOfSample s ((np : ℤ) - 1)
    (t, { s with _endTime_cache := some t, _endTime_cache_numPoints := np })
  | some t =>
    if s._endTime_cache_numPoints = numPoints s then (t, s)
    else
      let np := numPoints s
      let t2 := timeOfSample s ((np : ℤ) - 1)
      (t2, { s with _endTime_cache := some t2, _endTime_cache_numPoints := np })

/-- Setter startTime: assign and invalidate the end-time cache. -/
def setStartTime (s : SeismogramSegment) (v : ℚ) : SeismogramSegment :=
  { s with _startTime := v, _endTime_cache := none, _endTime_cache_numPoints := 0 }

/-- Setter sampleRate: assign and invalidate the end-time cache. -/
def setSampleRate (s : SeismogramSegment) (v : ℚ) : SeismogramSegment :=
  { s with _sampleRate := v, _endTime_cache := none, _endTime_cache_numPoints := 0 }

/-- Setter y: assign the sample array and invalidate the end-time
cache. -/
def setY (s : SeismogramSegment) (v : SampleArr) : SeismogramSegment :=
  { s with _y := some v, _endTime_cache := none, _endTime_cache_numPoints := 0 }

/-- The cached end time, when present and matching the current sample
count, holds the derived end time.  Every state reachable through the
class's own interface satisfies this. -/
def cacheOK (s : SeismogramSegment) : Prop :=
  match s._endTime_cache with
  | none => True
  | some t => s._endTime_cache_numPoints = numPoints s → t = endTimePure s

instance (s : SeismogramSegment) : Decidable (cacheOK s) := by
  unfold cacheOK
  cases s._endTime_cache <;> infer_instance

/-- The segment holds decoded samples (`_y` non-null). -/
def Decoded (s : SeismogramSegment) : Prop := s._y.isSome = true

instance (s : SeismogramSegment) : Decidable (Decoded s) := by
  unfold Decoded; infer_instance

/-- The decoded sample array of a segment (meaningful under `Decoded`). -/
def yArr (s : SeismogramSegment) : SampleArr := s._y.getD ⟨Width.f64, []⟩

/-- The output width the `y` getter chooses from the first encoded chunk's
compression type: `DOUBLE` to `Float64Array`, `FLOAT` to `Float32Array`,
anything else to `Int32Array`. -/
def widthOfComp (t : ℕ) : Width :=
  if t = DOUBLE then .f64 else if t = FLOAT then .f32 else .i32

/-- The decode loop of the `y` getter: for each chunk, in order, its first
`numSamples` decoded values are stored (with the typed-array store
coercion) into the output array.  An out-of-range read of a chunk's decoded
data is modelled as 0. -/
def decodeAll (cs : List EncodedDataSegment) : SampleArr :=
  let w := widthOfComp (cs.headD ⟨0, 0, []⟩).compressionType
  ⟨w, cs.flatMap (fun c => (List.range c.numSamples).map
        (fun i => storeCast w (c.decodeData.getD i 0)))⟩

/-- The segment state after the `y` getter decodes: samples populated,
encoded handles discarded. -/
def decodedState (s : SeismogramSegment) (cs : List EncodedDataSegment) :
    SeismogramSegment :=
  { s with _y := some (decodeAll cs), _compressed := none }

/-- The `y` getter: return `_y` when present; otherwise decode the encoded
chunks (error when neither is available).  Returns the array together with
the updated segment. -/
def ygetE (s : SeismogramSegment) :
    Except String (SampleArr × SeismogramSegment) :=
  match s._y with
  | some out => .ok (out, s)
  | none =>
    if isEncoded s = false then
      .error "Seismogram not y as TypedArray or encoded."
    else
      match s._compressed with
      | none => .error "Seismogram not y as TypedArray or encoded."
      | some cs => .ok (decodeAll cs, decodedState s cs)

/-- The core scan of `findMinMax`: fold the samples into a running
`[minAmp, maxAmp]` pair, which starts from the accumulator when one is
supplied and from `[MAX_SAFE_INTEGER, -MAX_SAFE_INTEGER]` otherwise. -/
def findMinMaxData (data : List ℚ) (acc : Option (ℚ × ℚ)) : ℚ × ℚ :=
  let init := match acc with
    | some p => p
    | none => ((9007199254740991 : ℚ), (-9007199254740991 : ℚ))
  data.foldl
    (fun mm v => (if mm.1 > v then v else mm.1, if mm.2 < v then v else mm.2))
    init

/-- Method findMinMax of SeismogramSegment, with its optional accumulator. -/
def findMinMax (s : SeismogramSegment) (acc : Option (ℚ × ℚ)) : ℚ × ℚ :=
  findMinMaxData (yArr s).data acc

/-- Method cloneWithNewData: a fresh segment with
the given samples and start time, copying rate, identity codes and unit
(the constructor leaves the end-time cache empty). -/
def cloneWithNewData (s : SeismogramSegment) (data : SampleArr) (start : ℚ) :
    SeismogramSegment :=
  { _y := some data, _compressed := none, _sampleRate := s._sampleRate,
    _startTime := start, _endTime_cache := none, _endTime_cache_numPoints := 0,
    networkCode := s.networkCode, stationCode := s.stationCode,
    locationCode := s.locationCode, channelCode := s.channelCode,
    yUnit := s.yUnit }

end SeismogramSegment

/-- A `StartEndDuration` time window.  Modelled from the spec: the class
lives in `src/util.js`, not present in the sources; the spec describes it
as a window with a start and an end instant. -/
structure TimeWindow where
  startTime : ℚ
  endTime : ℚ
deriving DecidableEq, Repr

/-- JS `Array.prototype.slice` index resolution: a negative index counts
from the end, then the index is clamped to `[0, len]`. -/
def jsSliceIdx (len : ℕ) (i : ℤ) : ℕ :=
  if i < 0 then ((len : ℤ) + i).toNat else min i.toNat len

/-- JS `slice(a, b)` on a list. -/
def jsSlice (l : List ℚ) (a b : ℤ) : List ℚ :=
  (l.take (jsSliceIdx l.length b)).drop (jsSliceIdx l.length a)

namespace SeismogramSegment

/-- Method cut of SeismogramSegment: null when the window lies strictly
outside the data range, else slice the samples between the floor-computed
start and end indices and clone with the shifted start time.  The `endTime`
getter reads are modelled by `endTimePure` (they agree on every state
satisfying `cacheOK`, see the C7 theorem); the benign cache fill performed
on the receiver by those reads is dropped. -/
def cut (s : SeismogramSegment) (w : TimeWindow) : Option SeismogramSegment :=
  if w.endTime < s._startTime ∨ w.startTime > endTimePure s then none
  else
    let sIndex : ℤ :=
      if w.startTime > s._startTime then
        Int.floor ((w.startTime - s._startTime) * 1000 * s._sampleRate / 1000)
      else 0
    let n := (yArr s).data.length
    let eIndex : ℤ :=
      if w.endTime < endTimePure s then
        (n : ℤ) - Int.floor ((endTimePure s - w.endTime) * 1000 * s._sampleRate / 1000)
      else (n : ℤ)
    let cutY : SampleArr := ⟨(yArr s).width, jsSlice (yArr s).data sIndex eIndex⟩
    some (cloneWithNewData s cutY
      (s._startTime + (sIndex : ℚ) / s._sampleRate))

end SeismogramSegment

open SeismogramSegment in
/-- The aggregate `Seismogram`: its segment array and the cached overall
start/end bounds computed by `findStartEnd` on construction. -/
structure Seismogram where
  _segmentArray : List SeismogramSegment
  _startTime : ℚ
  _endTime : ℚ
deriving DecidableEq, Repr

namespace Seismogram

open SeismogramSegment

/-- The `Seismogram` constructor on a nonempty segment list: store the
array and derive the bounds as `findStartEnd` does (min of segment start
times, max of segment end times).  The constructor's similarity check is
not re-modelled here: every use below constructs from segments of one
seismogram, for which it passes. -/
def mk' (segs : List SeismogramSegment) : Seismogram :=
  match segs with
  | [] => ⟨[], 0, 0⟩
  | s0 :: rest =>
    ⟨segs,
     rest.foldl (fun m s => min m s._startTime) s0._startTime,
     rest.foldl (fun m s => max m (endTimePure s)) (endTimePure s0)⟩

/-- Getter numPoints: sum of the segments' sample counts. -/
def numPoints (g : Seismogram) : ℕ :=
  g._segmentArray.foldl (fun acc s => acc + s.numPoints) 0

/-- Method checkSimilar: compare the six identity/rate/unit fields in the
source's order, throwing on the first mismatch. -/
def checkSimilarE (f s : SeismogramSegment) : Except String Unit :=
  if s.networkCode ≠ f.networkCode then
    .error ("NetworkCode not same: " ++ s.networkCode ++ " !== " ++ f.networkCode)
  else if s.stationCode ≠ f.stationCode then
    .error ("StationCode not same: " ++ s.stationCode ++ " !== " ++ f.stationCode)
  else if s.locationCode ≠ f.locationCode then
    .error ("LocationCode not same: " ++ s.locationCode ++ " !== " ++ f.locationCode)
  else if s.channelCode ≠ f.channelCode then
    .error ("ChannelCode not same: " ++ s.channelCode ++ " !== " ++ f.channelCode)
  else if s.yUnit ≠ f.yUnit then
    .error ("yUnit not same: " ++ s.yUnit ++ " !== " ++ f.yUnit)
  else if s._sampleRate ≠ f._sampleRate then
    .error "SampleRate not same"
  else .ok ()

/-- Method append on a segment: validate against the first segment, then extend the
cached bounds by min/max and push the segment (whose end-time cache the
`endTime` getter read fills). -/
def appendE (g : Seismogram) (seg : SeismogramSegment) :
    Except String Seismogram :=
  match checkSimilarE (g._segmentArray.headD dfltSeg) seg with
  | .error m => .error m
  | .ok _ =>
    let p := endTimeGet seg
    .ok { _segmentArray := g._segmentArray ++ [p.2],
          _startTime := min g._startTime seg._startTime,
          _endTime := max g._endTime p.1 }

/-- Method trim: keep the segments whose end time is strictly after
the window start and whose start time is strictly before the window end;
null when none remain. -/
def trim (g : Seismogram) (w : TimeWindow) : Option Seismogram :=
  let kept := g._segmentArray.filter
    (fun d => decide (w.startTime < endTimePure d) && decide (d._startTime < w.endTime))
  if kept.length > 0 then some (mk' kept) else none

/-- Method cut of Seismogram: coarse `trim` first; then cut every segment of the
original array, dropping nulls; when any survive, rebuild a seismogram from
them, else fall back to the trimmed result. -/
def cut (g : Seismogram) (w : TimeWindow) : Option Seismogram :=
  match trim g w with
  | none => none
  | some out =>
    let cutSeisArray := g._segmentArray.filterMap (fun seg => seg.cut w)
    if cutSeisArray.length > 0 then some (mk' cutSeisArray) else some out

/-- Method mean: accumulate `meanOfSlice(s.y, s.y.length) * s.numPoints` over
the segments, then divide by the total sample count.  `meanOfSlice` is
modelled from the spec: it lives in `src/util.js`, not in the sources; per
the spec it is the arithmetic mean used in the sample-count-weighted
average, i.e. the sum of the slice divided by the given count. -/
def meanOfSlice (data : List ℚ) (totalPts : ℕ) : ℚ := data.sum / (totalPts : ℚ)

/-- Method mean of Seismogram. -/
def mean (g : Seismogram) : ℚ :=
  let npts := numPoints g
  (g._segmentArray.foldl
    (fun acc s => acc + meanOfSlice (yArr s).data (yArr s).data.length * (s.numPoints : ℚ))
    0) / (npts : ℚ)

/-- Method findMinMax of Seismogram: fold each segment's
`findMinMax` through the accumulator. -/
def findMinMax (g : Seismogram) (acc : Option (ℚ × ℚ)) : Option (ℚ × ℚ) :=
  g._segmentArray.foldl (fun a s => some (SeismogramSegment.findMinMax s a)) acc

/-- Method merge: allocate an output array of the first segment's width and
length `numPoints`, then store every segment's samples into it in order
(each store applying the typed-array coercion of the output width).  The
source's `throw` branch is unreachable: the `y` getter always yields one of
the three typed-array widths. -/
def merge (g : Seismogram) : SampleArr :=
  let w := (yArr (g._segmentArray.headD dfltSeg)).width
  ⟨w, g._segmentArray.flatMap (fun seg => (yArr seg).data.map (storeCast w))⟩

/-- The loop of `isContiguous()` over the tail of the segment array,
threading the segment states: for each adjacent pair the predecessor's
`endTime` getter is read (filling its cache) and, when the first comparison
passes, the cached moment is then mutated in place by `moment#add`,
shifting it by 1.5 sample periods — the faithful model of
`prev.endTime.add(1000*1.5/prev.sampleRate, 'ms')`. -/
def contigLoop (prev : SeismogramSegment) :
    List SeismogramSegment → Bool × List SeismogramSegment
  | [] => (true, [prev])
  | s :: rest =>
    let p := endTimeGet prev
    if p.1 < s._startTime then
      let shifted := p.1 + (3/2) / p.2._sampleRate
      let prev2 := { p.2 with _endTime_cache := some shifted }
      if shifted > s._startTime then
        let r := contigLoop s rest
        (r.1, prev2 :: r.2)
      else (false, prev2 :: s :: rest)
    else (false, p.2 :: s :: rest)

/-- Method isContiguous: true for a single segment; otherwise run the pairwise
loop.  Returns the result together with the seismogram, whose segments the
loop may have mutated (see `contigLoop`). -/
def isContiguousSt (g : Seismogram) : Bool × Seismogram :=
  if g._segmentArray.length = 1 then (true, g)
  else
    match g._segmentArray with
    | [] => (true, g)
    | s0 :: rest =>
      let r := contigLoop s0 rest
      (r.1, { g with _segmentArray := r.2 })

/-- The pure pairwise contiguity condition the loop's comparisons test:
the predecessor ends strictly before the successor starts, and within 1.5
sample periods of it. -/
def pairOK (a b : SeismogramSegment) : Prop :=
  endTimePure a < b._startTime ∧
  endTimePure a + (3/2) / a._sampleRate > b._startTime

instance (a b : SeismogramSegment) : Decidable (pairOK a b) := by
  unfold pairOK; infer_instance

end Seismogram

/-! ## Basic lemmas about the segment state machine -/

namespace SeismogramSegment

@[simp]
theorem numPoints_cacheSet (s : SeismogramSegment) (c : Option ℚ) (k : ℕ) :
    numPoints { s with _endTime_cache := c, _endTime_cache_numPoints := k } =
      numPoints s := rfl

@[simp]
theorem timeOfSample_cacheSet (s : SeismogramSegment) (c : Option ℚ) (k : ℕ)
    (i : ℤ) :
    timeOfSample { s with _endTime_cache := c, _endTime_cache_numPoints := k } i =
      timeOfSample s i := rfl

@[simp]
theorem endTimePure_cacheSet (s : SeismogramSegment) (c : Option ℚ) (k : ℕ) :
    endTimePure { s with _endTime_cache := c, _endTime_cache_numPoints := k } =
      endTimePure s := rfl

/-- Folding `acc + f x` over a list equals the initial accumulator plus the
sum of the mapped list. -/
theorem foldl_add_eq_sum {α M : Type} [AddCommMonoid M] (f : α → M)
    (l : List α) (a : M) :
    l.foldl (fun acc x => acc + f x) a = a + (l.map f).sum := by
  induction l generalizing a with
  | nil => simp
  | cons x xs ih => simp [ih, add_assoc]

theorem timeOfSample_cast (s : SeismogramSegment) (np : ℕ) :
    timeOfSample s ((np : ℤ) - 1) =
      s._startTime + ((np : ℚ) - 1) / s._sampleRate := by
  unfold timeOfSample
  push_cast
  ring

/-- Under the cache invariant, the `endTime` getter returns the derived end
time. -/
theorem endTimeGet_fst (s : SeismogramSegment) (h : cacheOK s) :
    (endTimeGet s).1 = endTimePure s := by
  unfold endTimeGet
  unfold cacheOK at h
  cases hc : s._endTime_cache with
  | none => simp [endTimePure]
  | some t =>
    rw [hc] at h
    by_cases hn : s._endTime_cache_numPoints = s.numPoints
    · simp [hn, h hn]
    · simp [hn, endTimePure]

theorem endTimeGet_sampleRate (s : SeismogramSegment) :
    (endTimeGet s).2._sampleRate = s._sampleRate := by
  unfold endTimeGet
  cases s._endTime_cache with
  | none => rfl
  | some t =>
    by_cases hn : s._endTime_cache_numPoints = s.numPoints <;> simp [hn]

theorem endTimeGet_numPoints (s : SeismogramSegment) :
    numPoints (endTimeGet s).2 = numPoints s := by
  unfold endTimeGet
  cases s._endTime_cache with
  | none => rfl
  | some t =>
    by_cases hn : s._endTime_cache_numPoints = s.numPoints
    · simp [hn]
    · simp [hn]

theorem endTimeGet_startTime (s : SeismogramSegment) :
    (endTimeGet s).2._startTime = s._startTime := by
  unfold endTimeGet
  cases s._endTime_cache with
  | none => rfl
  | some t =>
    by_cases hn : s._endTime_cache_numPoints = s.numPoints <;> simp [hn]

/-- The getter's own cache fill preserves the cache invariant. -/
theorem endTimeGet_cacheOK (s : SeismogramSegment) (h : cacheOK s) :
    cacheOK (endTimeGet s).2 := by
  unfold endTimeGet
  cases hc : s._endTime_cache with
  | none =>
    unfold cacheOK
    simp [endTimePure]
  | some t =>
    by_cases hn : s._endTime_cache_numPoints = s.numPoints
    · simpa [hn, hc, cacheOK] using h
    · simp only [hn, if_false]
      unfold cacheOK
      simp [endTimePure]

/-- A second read of the `endTime` getter returns the cached value and
leaves the state unchanged: the recomputation runs at most once. -/
theorem endTimeGet_idem (s : SeismogramSegment) :
    endTimeGet (endTimeGet s).2 = ((endTimeGet s).1, (endTimeGet s).2) := by
  unfold endTimeGet
  cases hc : s._endTime_cache with
  | none => simp
  | some t =>
    by_cases hn : s._endTime_cache_numPoints = s.numPoints
    · simp [hc, hn]
    · simp [hc, hn]

end SeismogramSegment

open SeismogramSegment Seismogram

/-- C7: for a segment with `n > 0` samples, the `endTime` getter returns
`startTime + (n-1)/sampleRate` seconds (under the cache invariant); the
value is cached so a second read returns it without change of state; and
assigning `startTime`, `sampleRate` or `y` clears the cache, so the next
read reflects the segment's current start time, rate and sample count. -/
theorem c7_endTime_derivation (s : SeismogramSegment)
    (h : cacheOK s) (hn : 0 < s.numPoints) :
    (endTimeGet s).1 = s._startTime + ((s.numPoints : ℚ) - 1) / s._sampleRate ∧
    endTimeGet (endTimeGet s).2 = ((endTimeGet s).1, (endTimeGet s).2) ∧
    (∀ v : ℚ, (setStartTime s v)._endTime_cache = none ∧
      (endTimeGet (setStartTime s v)).1 =
        v + ((s.numPoints : ℚ) - 1) / s._sampleRate) ∧
    (∀ v : ℚ, (setSampleRate s v)._endTime_cache = none ∧
      (endTimeGet (setSampleRate s v)).1 =
        s._startTime + ((s.numPoints : ℚ) - 1) / v) ∧
    (∀ a : SampleArr, (setY s a)._endTime_cache = none ∧
      (endTimeGet (setY s a)).1 =
        s._startTime + ((a.data.length : ℚ) - 1) / s._sampleRate) := by
  refine ⟨?_, endTimeGet_idem s, ?_, ?_, ?_⟩
  · rw [endTimeGet_fst s h]
    unfold endTimePure
    exact timeOfSample_cast s s.numPoints
  · intro v
    refine ⟨rfl, ?_⟩
    have hca : cacheOK (setStartTime s v) := by unfold cacheOK setStartTime; simp
    rw [endTimeGet_fst _ hca]
    unfold endTimePure
    have hnp : numPoints (setStartTime s v) = s.numPoints := rfl
    rw [hnp, timeOfSample_cast]
    rfl
  · intro v
    refine ⟨rfl, ?_⟩
    have hca : cacheOK (setSampleRate s v) := by unfold cacheOK setSampleRate; simp
    rw [endTimeGet_fst _ hca]
    unfold endTimePure
    have hnp : numPoints (setSampleRate s v) = s.numPoints := rfl
    rw [hnp, timeOfSample_cast]
    rfl
  · intro a
    refine ⟨rfl, ?_⟩
    have hca : cacheOK (setY s a) := by unfold cacheOK setY; simp
    rw [endTimeGet_fst _ hca]
    unfold endTimePure
    have hnp : numPoints (setY s a) = a.data.length := rfl
    rw [hnp, timeOfSample_cast]
    rfl

/-- A concrete segment used to witness C7. -/
def segW7 : SeismogramSegment :=
  { _y := some ⟨Width.i32, [1, 2, 3]⟩, _compressed := none, _sampleRate := 2,
    _startTime := 10, _endTime_cache := none, _endTime_cache_numPoints := 0,
    networkCode := "CO", stationCode := "JSC", locationCode := "00",
    channelCode := "HHZ", yUnit := "count" }

/-- Witness for C7 at a concrete segment. -/
theorem c7_endTime_derivation_witness :
    cacheOK segW7 ∧ 0 < segW7.numPoints ∧
    (endTimeGet segW7).1 =
      segW7._startTime + ((segW7.numPoints : ℚ) - 1) / segW7._sampleRate :=
  ⟨by decide, by decide,
   (c7_endTime_derivation segW7 (by decide) (by decide)).1⟩

/-- C4: a segment constructed from encoded payloads reports
`isEncoded() = true`; the first read of `y` decodes all chunks in order
into one typed array of `numPoints` samples and discards the encoded
handles; afterwards `isEncoded()` is false, later reads return the same
array and state unchanged (decoding runs at most once, the transition is
one-way), and `numPoints` is preserved. -/
theorem c4_lazy_decode (s : SeismogramSegment) (cs : List EncodedDataSegment)
    (h1 : s._y = none) (h2 : s._compressed = some cs) (h3 : cs ≠ []) :
    isEncoded s = true ∧
    ygetE s = Except.ok (decodeAll cs, decodedState s cs) ∧
    (decodedState s cs)._y = some (decodeAll cs) ∧
    (decodedState s cs)._compressed = none ∧
    isEncoded (decodedState s cs) = false ∧
    ygetE (decodedState s cs) = Except.ok (decodeAll cs, decodedState s cs) ∧
    (decodeAll cs).data.length = s.numPoints ∧
    (decodedState s cs).numPoints = s.numPoints := by
  have henc : isEncoded s = true := by
    unfold isEncoded
    rw [h1, h2]
    simp [List.length_pos, h3]
  have hlen : (decodeAll cs).data.length = s.numPoints := by
    unfold SeismogramSegment.numPoints
    rw [h1, h2]
    show (decodeAll cs).data.length = List.foldl (fun acc c => acc + c.numSamples) 0 cs
    rw [foldl_add_eq_sum (fun c => c.numSamples) cs 0]
    unfold decodeAll
    simp only [List.length_flatMap, Nat.zero_add]
    congr 1
    apply List.map_congr_left
    intro c _
    simp
  refine ⟨henc, ?_, rfl, rfl, ?_, rfl, hlen, hlen⟩
  · unfold ygetE
    rw [h1, henc]
    simp [h2]
  · unfold isEncoded decodedState
    by_cases hl : (decodeAll cs).data.length > 0
    · simp [hl]
    · simp [hl]

/-- Concrete encoded chunks used to witness C4. -/
def csW4 : List EncodedDataSegment :=
  [⟨10, 2, [3, 7]⟩, ⟨10, 1, [-2]⟩]

/-- A concrete encoded segment used to witness C4. -/
def segW4 : SeismogramSegment :=
  { _y := none, _compressed := some csW4, _sampleRate := 1,
    _startTime := 0, _endTime_cache := none, _endTime_cache_numPoints := 0,
    networkCode := "CO", stationCode := "JSC", locationCode := "00",
    channelCode := "HHZ", yUnit := "count" }

/-- Witness for C4 at a concrete encoded segment. -/
theorem c4_lazy_decode_witness :
    csW4 ≠ [] ∧ isEncoded segW4 = true ∧
    ygetE segW4 = Except.ok (decodeAll csW4, decodedState segW4 csW4) ∧
    isEncoded (decodedState segW4 csW4) = false ∧
    (decodeAll csW4).data.length = segW4.numPoints :=
  ⟨by decide,
   (c4_lazy_decode segW4 csW4 rfl rfl (by decide)).1,
   (c4_lazy_decode segW4 csW4 rfl rfl (by decide)).2.1,
   (c4_lazy_decode segW4 csW4 rfl rfl (by decide)).2.2.2.2.1,
   (c4_lazy_decode segW4 csW4 rfl rfl (by decide)).2.2.2.2.2.2.1⟩

/-- The loop of `isContiguous()` returns true exactly when every adjacent
pair of segments satisfies the pairwise contiguity condition (stated on
segment states satisfying the cache invariant). -/
theorem contigLoop_fst (rest : List SeismogramSegment)
    (prev : SeismogramSegment) (hp : cacheOK prev)
    (hr : ∀ s ∈ rest, cacheOK s) :
    ((contigLoop prev rest).1 = true) ↔ List.Chain' pairOK (prev :: rest) := by
  induction rest generalizing prev with
  | nil => simp [contigLoop]
  | cons s rest ih =>
    have h1 : (endTimeGet prev).1 = endTimePure prev := endTimeGet_fst prev hp
    have h2 : (endTimeGet prev).2._sampleRate = prev._sampleRate :=
      endTimeGet_sampleRate prev
    have hcs : cacheOK s := hr s (List.mem_cons_self s rest)
    have hrest : ∀ x ∈ rest, cacheOK x :=
      fun x hx => hr x (List.mem_cons_of_mem s hx)
    rw [List.chain'_cons, ← ih s hcs hrest]
    simp only [contigLoop]
    by_cases hA : (endTimeGet prev).1 < s._startTime
    · simp only [if_pos hA]
      by_cases hB :
          (endTimeGet prev).1 + (3/2) / (endTimeGet prev).2._sampleRate >
            s._startTime
      · simp only [if_pos hB]
        constructor
        · intro h
          refine ⟨⟨by rwa [h1] at hA, ?_⟩, h⟩
          rw [← h1, ← h2]
          exact hB
        · intro h
          exact h.2
      · simp only [if_neg hB]
        constructor
        · intro h
          exact absurd h (by simp)
        · intro h
          exfalso
          apply hB
          rw [h1, h2]
          exact h.1.2
    · simp only [if_neg hA]
      constructor
      · intro h
        exact absurd h (by simp)
      · intro h
        exfalso
        apply hA
        rw [h1]
        exact h.1.1

/-- C2: on states satisfying the cache invariant, `isContiguous()` is true
for every single-segment seismogram, and in general is true iff every
adjacent pair satisfies `prev.endTime < next.startTime` and
`prev.endTime + 1.5/sampleRate > next.startTime`; consequently a gap of
exactly one sample period is contiguous while gaps of exactly two sample
periods or of zero length are not. -/
theorem c2_isContiguous_characterization :
    (∀ g : Seismogram, (∀ s ∈ g._segmentArray, cacheOK s) →
      (g._segmentArray.length = 1 → (isContiguousSt g).1 = true) ∧
      ((isContiguousSt g).1 = true ↔ List.Chain' pairOK g._segmentArray)) ∧
    (∀ a b : SeismogramSegment, cacheOK a → cacheOK b → 0 < a._sampleRate →
      ((b._startTime = endTimePure a + 1 / a._sampleRate →
         (isContiguousSt (mk' [a, b])).1 = true) ∧
       (b._startTime = endTimePure a + 2 / a._sampleRate →
         (isContiguousSt (mk' [a, b])).1 = false) ∧
       (b._startTime = endTimePure a →
         (isContiguousSt (mk' [a, b])).1 = false))) := by
  have main : ∀ g : Seismogram, (∀ s ∈ g._segmentArray, cacheOK s) →
      (g._segmentArray.length = 1 → (isContiguousSt g).1 = true) ∧
      ((isContiguousSt g).1 = true ↔ List.Chain' pairOK g._segmentArray) := by
    intro g hc
    constructor
    · intro hlen
      unfold isContiguousSt
      rw [if_pos hlen]
    · unfold isContiguousSt
      by_cases hlen : g._segmentArray.length = 1
      · rw [if_pos hlen]
        obtain ⟨x, hx⟩ := List.length_eq_one.mp hlen
        rw [hx]
        simp
      · rw [if_neg hlen]
        cases hseg : g._segmentArray with
        | nil => simp
        | cons s0 rest =>
          rw [hseg] at hc
          simpa using contigLoop_fst rest s0
            (hc s0 (List.mem_cons_self s0 rest))
            (fun x hx => hc x (List.mem_cons_of_mem s0 hx))
  refine ⟨main, ?_⟩
  intro a b ha hb hr
  have hseg : (mk' [a, b])._segmentArray = [a, b] := rfl
  have hchain := (main (mk' [a, b]) (by
    rw [hseg]
    intro s hs
    simp only [List.mem_cons, List.mem_singleton, List.not_mem_nil,
      or_false] at hs
    rcases hs with rfl | rfl
    · exact ha
    · exact hb)).2
  rw [hseg] at hchain
  have hchain2 : (isContiguousSt (mk' [a, b])).1 = true ↔ pairOK a b := by
    rw [hchain]
    simp
  have toFalse : ¬ pairOK a b → (isContiguousSt (mk' [a, b])).1 = false := by
    intro hnot
    cases hres : (isContiguousSt (mk' [a, b])).1
    · rfl
    · exact absurd (hchain2.mp hres) hnot
  refine ⟨?_, ?_, ?_⟩
  · intro hgap
    apply hchain2.mpr
    constructor
    · rw [hgap]
      have : 0 < 1 / a._sampleRate := by positivity
      linarith
    · rw [hgap]
      have h15 : 1 / a._sampleRate < (3/2) / a._sampleRate := by
        gcongr
        · norm_num
      linarith
  · intro hgap
    apply toFalse
    intro hpair
    have h22 : (3/2) / a._sampleRate ≤ 2 / a._sampleRate := by
      gcongr
      norm_num
    have := hpair.2
    rw [hgap] at this
    linarith
  · intro hgap
    apply toFalse
    intro hpair
    have := hpair.1
    rw [hgap] at this
    exact lt_irrefl _ this

/-- First concrete segment for the C2 witness: two samples at 1 Hz starting
at t = 0, so its end time is t = 1. -/
def segW2a : SeismogramSegment :=
  { _y := some ⟨Width.i32, [1, 2]⟩, _compressed := none, _sampleRate := 1,
    _startTime := 0, _endTime_cache := none, _endTime_cache_numPoints := 0,
    networkCode := "CO", stationCode := "JSC", locationCode := "00",
    channelCode := "HHZ", yUnit := "count" }

/-- Second concrete segment for the C2 witness: starts one sample period
after the first segment's end time. -/
def segW2b : SeismogramSegment :=
  { segW2a with _startTime := 2 }

/-- Witness for C2: at a concrete two-segment seismogram, the contiguity
result is characterized by the pairwise condition. -/
theorem c2_isContiguous_characterization_witness :
    (∀ s ∈ (mk' [segW2a, segW2b])._segmentArray, cacheOK s) ∧
    ((isContiguousSt (mk' [segW2a, segW2b])).1 = true ↔
      List.Chain' pairOK (mk' [segW2a, segW2b])._segmentArray) :=
  ⟨by decide,
   (c2_isContiguous_characterization.1 (mk' [segW2a, segW2b]) (by decide)).2⟩

/-- Second segment for the C10 input: starts half a sample period after
the first segment's end time, so the pair is contiguous. -/
def segB10 : SeismogramSegment :=
  { segW2a with _startTime := 3/2 }

/-- The two-segment contiguous seismogram on which C10 is evaluated. -/
def g10 : Seismogram := mk' [segW2a, segB10]

/-- C10 (bug evidence): on a concrete contiguous two-segment seismogram,
`isContiguous()` returns true but leaves the first segment's cached end
time shifted forward by 1.5 sample periods: `endTime` read 1 before the
call and reads 5/2 after it, because
`prev.endTime.add(1000*1.5/prev.sampleRate, 'ms')` mutates the cached
moment in place. -/
theorem c10_isContiguous_mutates_endTime :
    (isContiguousSt g10).1 = true ∧
    (endTimeGet segW2a).1 = 1 ∧
    (endTimeGet ((isContiguousSt g10).2._segmentArray.headD dfltSeg)).1
      = 5/2 := by
  refine ⟨?_, ?_, ?_⟩
  · norm_num [g10, mk', isContiguousSt, contigLoop, endTimeGet, timeOfSample,
      SeismogramSegment.numPoints, segW2a, segB10]
  · norm_num [endTimeGet, timeOfSample, SeismogramSegment.numPoints, segW2a]
  · norm_num [g10, mk', isContiguousSt, contigLoop, endTimeGet, timeOfSample,
      SeismogramSegment.numPoints, segW2a, segB10, dfltSeg]

/-- Chaining `findMinMax` through its accumulator across two sample lists
equals one scan over their concatenation. -/
theorem findMinMaxData_append (xs ys : List ℚ) (acc : Option (ℚ × ℚ)) :
    findMinMaxData ys (some (findMinMaxData xs acc)) =
      findMinMaxData (xs ++ ys) acc := by
  unfold findMinMaxData
  simp [List.foldl_append]

/-- C6: folding `findMinMax` across the chunks of a split sample sequence,
feeding each chunk's `[min, max]` result to the next as accumulator,
yields the same pair as a single `findMinMax` over the concatenation of
all the chunks — stated for raw chunk lists, for segment lists, and for
`Seismogram.findMinMax`. -/
theorem c6_findMinMax_fold :
    (∀ (chunks : List (List ℚ)) (acc : Option (ℚ × ℚ)), chunks ≠ [] →
      chunks.foldl (fun a c => some (findMinMaxData c a)) acc =
        some (findMinMaxData chunks.flatten acc)) ∧
    (∀ (segs : List SeismogramSegment) (acc : Option (ℚ × ℚ)), segs ≠ [] →
      segs.foldl (fun a s => some (SeismogramSegment.findMinMax s a)) acc =
        some (findMinMaxData (segs.flatMap (fun s => (yArr s).data)) acc)) ∧
    (∀ (g : Seismogram) (acc : Option (ℚ × ℚ)), g._segmentArray ≠ [] →
      Seismogram.findMinMax g acc =
        some (findMinMaxData
          (g._segmentArray.flatMap (fun s => (yArr s).data)) acc)) := by
  have part1 : ∀ (chunks : List (List ℚ)) (acc : Option (ℚ × ℚ)),
      chunks ≠ [] →
      chunks.foldl (fun a c => some (findMinMaxData c a)) acc =
        some (findMinMaxData chunks.flatten acc) := by
    intro chunks
    induction chunks with
    | nil => intro acc h; exact absurd rfl h
    | cons c cs ih =>
      intro acc _
      cases hcs : cs with
      | nil => simp [findMinMaxData]
      | cons d ds =>
        subst hcs
        rw [List.foldl_cons]
        rw [ih (some (findMinMaxData c acc)) (by simp)]
        rw [findMinMaxData_append]
        simp
  have part2 : ∀ (segs : List SeismogramSegment) (acc : Option (ℚ × ℚ)),
      segs ≠ [] →
      segs.foldl (fun a s => some (SeismogramSegment.findMinMax s a)) acc =
        some (findMinMaxData (segs.flatMap (fun s => (yArr s).data)) acc) := by
    intro segs acc hne
    have hmap : segs.foldl (fun a s => some (SeismogramSegment.findMinMax s a)) acc =
        (segs.map (fun s => (yArr s).data)).foldl
          (fun a c => some (findMinMaxData c a)) acc := by
      rw [List.foldl_map]
      rfl
    rw [hmap, part1 _ acc (by simpa using hne)]
    rw [List.flatMap_def]
  refine ⟨part1, part2, ?_⟩
  intro g acc hne
  exact part2 g._segmentArray acc hne

/-- Witness for C6 at concrete chunks. -/
theorem c6_findMinMax_fold_witness :
    ([[ (3:ℚ), 1], [2, 7]] ≠ ([] : List (List ℚ))) ∧
    [[(3:ℚ), 1], [2, 7]].foldl (fun a c => some (findMinMaxData c a)) none =
      some (findMinMaxData [[(3:ℚ), 1], [2, 7]].flatten none) :=
  ⟨by decide, c6_findMinMax_fold.1 [[3, 1], [2, 7]] none (by decide)⟩

/-- C8: a cut window lying entirely outside the segment's data range
(window end before the data start, or window start after the data end)
makes `cut` return null — a value, not an error — and `trim` returns null
when every segment is strictly disjoint from the window. -/
theorem c8_outside_window_null :
    (∀ (s : SeismogramSegment) (w : TimeWindow),
      w.endTime < s._startTime ∨ w.startTime > endTimePure s →
      SeismogramSegment.cut s w = none) ∧
    (∀ (g : Seismogram) (w : TimeWindow),
      (∀ seg ∈ g._segmentArray,
        endTimePure seg < w.startTime ∨ seg._startTime > w.endTime) →
      Seismogram.trim g w = none) := by
  constructor
  · intro s w h
    unfold SeismogramSegment.cut
    rw [if_pos h]
  · intro g w h
    unfold Seismogram.trim
    have hfil : g._segmentArray.filter
        (fun d => decide (w.startTime < endTimePure d) &&
          decide (d._startTime < w.endTime)) = [] := by
      rw [List.filter_eq_nil_iff]
      intro d hd
      rcases h d hd with h1 | h1
      · simp only [Bool.and_eq_true, decide_eq_true_eq, not_and]
        intro hlt
        exact absurd hlt (by exact not_lt.mpr (le_of_lt h1))
      · simp only [Bool.and_eq_true, decide_eq_true_eq, not_and]
        intro _
        exact not_lt.mpr (le_of_lt h1)
    rw [hfil]
    simp

/-- A segment starting at t = 10 used to witness C8. -/
def segW8 : SeismogramSegment :=
  { segW7 with _startTime := 10 }

/-- A window entirely before the data of `segW8`. -/
def winW8 : TimeWindow := ⟨1, 5⟩

/-- Witness for C8: cutting and trimming with a window entirely before the
data yields null. -/
theorem c8_outside_window_null_witness :
    (winW8.endTime < segW8._startTime ∨
       winW8.startTime > endTimePure segW8) ∧
    SeismogramSegment.cut segW8 winW8 = none ∧
    Seismogram.trim (mk' [segW8]) winW8 = none :=
  ⟨Or.inl (by decide),
   c8_outside_window_null.1 segW8 winW8 (Or.inl (by decide)),
   c8_outside_window_null.2 (mk' [segW8]) winW8 (by
     intro seg hseg
     simp only [mk', List.mem_singleton] at hseg
     subst hseg
     right
     decide)⟩

/-- A decoded segment's `numPoints` is the length of its sample array. -/
theorem numPoints_decoded (s : SeismogramSegment) (h : Decoded s) :
    s.numPoints = (yArr s).data.length := by
  unfold Decoded at h
  unfold SeismogramSegment.numPoints yArr
  cases hy : s._y with
  | none => rw [hy] at h; exact absurd h (by simp)
  | some a => simp [hy]

/-- C9: for a seismogram whose segments are decoded and nonempty, `mean()`
equals the sample-count-weighted average of the segment means — the sum
over segments of `(segment mean) * (segment sample count)` divided by the
total `numPoints` — and this equals the arithmetic mean of the
concatenation of all segments' samples. -/
theorem c9_mean_weighted (g : Seismogram)
    (hdec : ∀ s ∈ g._segmentArray, Decoded s ∧ 0 < s.numPoints) :
    Seismogram.mean g =
      (g._segmentArray.map (fun s =>
        meanOfSlice (yArr s).data (yArr s).data.length * (s.numPoints : ℚ))).sum
        / (Seismogram.numPoints g : ℚ) ∧
    Seismogram.mean g =
      (g._segmentArray.flatMap (fun s => (yArr s).data)).sum
        / (Seismogram.numPoints g : ℚ) := by
  have hfold : Seismogram.mean g =
      (g._segmentArray.map (fun s =>
        meanOfSlice (yArr s).data (yArr s).data.length * (s.numPoints : ℚ))).sum
        / (Seismogram.numPoints g : ℚ) := by
    unfold Seismogram.mean
    rw [foldl_add_eq_sum
      (fun s => meanOfSlice (yArr s).data (yArr s).data.length * (s.numPoints : ℚ))
      g._segmentArray 0]
    rw [zero_add]
  refine ⟨hfold, ?_⟩
  rw [hfold]
  congr 1
  rw [List.flatMap_def, List.sum_flatten, List.map_map]
  congr 1
  apply List.map_congr_left
  intro s hs
  obtain ⟨hd, hnp⟩ := hdec s hs
  rw [numPoints_decoded s hd]
  unfold meanOfSlice
  have hlen : ((yArr s).data.length : ℚ) ≠ 0 := by
    rw [numPoints_decoded s hd] at hnp
    exact_mod_cast Nat.pos_iff_ne_zero.mp hnp
  field_simp

/-- Witness for C9 at a concrete single-segment seismogram. -/
theorem c9_mean_weighted_witness :
    (∀ s ∈ (mk' [segW2a])._segmentArray, Decoded s ∧ 0 < s.numPoints) ∧
    Seismogram.mean (mk' [segW2a]) =
      ((mk' [segW2a])._segmentArray.flatMap (fun s => (yArr s).data)).sum
        / (Seismogram.numPoints (mk' [segW2a]) : ℚ) :=
  ⟨by decide, (c9_mean_weighted (mk' [segW2a]) (by decide)).2⟩

/-- C5: appending a segment whose network, station, location or channel
code, unit or sample rate differs from the seismogram's first segment
fails with an error; appending an identical-identity segment succeeds, the
total `numPoints` becomes the old total plus the appended segment's count,
and the cached start/end bounds become the min/max of the old bounds and
the segment's bounds. -/
theorem c5_append_validation (g : Seismogram) (seg f : SeismogramSegment)
    (hf : g._segmentArray.head? = some f) (hc : cacheOK seg) :
    ((f.networkCode ≠ seg.networkCode ∨ f.stationCode ≠ seg.stationCode ∨
      f.locationCode ≠ seg.locationCode ∨ f.channelCode ≠ seg.channelCode ∨
      f.yUnit ≠ seg.yUnit ∨ f._sampleRate ≠ seg._sampleRate) ↔
      ∃ m, appendE g seg = Except.error m) ∧
    (∀ g2 : Seismogram, appendE g seg = Except.ok g2 →
      Seismogram.numPoints g2 = Seismogram.numPoints g + seg.numPoints ∧
      g2._startTime = min g._startTime seg._startTime ∧
      g2._endTime = max g._endTime (endTimePure seg)) := by
  have hhead : g._segmentArray.headD dfltSeg = f := by
    rw [List.headD_eq_head?, hf]
    rfl
  unfold appendE
  rw [hhead]
  unfold checkSimilarE
  by_cases h1 : seg.networkCode ≠ f.networkCode
  · rw [if_pos h1]
    exact ⟨⟨fun _ => ⟨_, rfl⟩, fun _ => Or.inl (Ne.symm h1)⟩,
           fun g2 h => by cases h⟩
  · rw [if_neg h1]
    by_cases h2 : seg.stationCode ≠ f.stationCode
    · rw [if_pos h2]
      exact ⟨⟨fun _ => ⟨_, rfl⟩, fun _ => Or.inr (Or.inl (Ne.symm h2))⟩,
             fun g2 h => by cases h⟩
    · rw [if_neg h2]
      by_cases h3 : seg.locationCode ≠ f.locationCode
      · rw [if_pos h3]
        exact ⟨⟨fun _ => ⟨_, rfl⟩,
                fun _ => Or.inr (Or.inr (Or.inl (Ne.symm h3)))⟩,
               fun g2 h => by cases h⟩
      · rw [if_neg h3]
        by_cases h4 : seg.channelCode ≠ f.channelCode
        · rw [if_pos h4]
          exact ⟨⟨fun _ => ⟨_, rfl⟩,
                  fun _ => Or.inr (Or.inr (Or.inr (Or.inl (Ne.symm h4))))⟩,
                 fun g2 h => by cases h⟩
        · rw [if_neg h4]
          by_cases h5 : seg.yUnit ≠ f.yUnit
          · rw [if_pos h5]
            exact ⟨⟨fun _ => ⟨_, rfl⟩,
                    fun _ => Or.inr (Or.inr (Or.inr (Or.inr (Or.inl
                      (Ne.symm h5)))))⟩,
                   fun g2 h => by cases h⟩
          · rw [if_neg h5]
            by_cases h6 : seg._sampleRate ≠ f._sampleRate
            · rw [if_pos h6]
              exact ⟨⟨fun _ => ⟨_, rfl⟩,
                      fun _ => Or.inr (Or.inr (Or.inr (Or.inr (Or.inr
                        (Ne.symm h6)))))⟩,
                     fun g2 h => by cases h⟩
            · rw [if_neg h6]
              push_neg at h1 h2 h3 h4 h5 h6
              constructor
              · constructor
                · intro hmis
                  exfalso
                  rcases hmis with h | h | h | h | h | h <;>
                    first
                      | exact h h1.symm
                      | exact h h2.symm
                      | exact h h3.symm
                      | exact h h4.symm
                      | exact h h5.symm
                      | exact h h6.symm
                · intro ⟨m, hm⟩
                  cases hm
              · intro g2 hok
                injection hok with hok
                subst hok
                refine ⟨?_, rfl, ?_⟩
                · show List.foldl (fun acc s => acc + s.numPoints) 0
                      (g._segmentArray ++ [(endTimeGet seg).2]) =
                    List.foldl (fun acc s => acc + s.numPoints) 0
                      g._segmentArray + seg.numPoints
                  rw [foldl_add_eq_sum
                      (fun s : SeismogramSegment => s.numPoints) _ 0,
                    foldl_add_eq_sum
                      (fun s : SeismogramSegment => s.numPoints) _ 0]
                  simp [endTimeGet_numPoints]
                · rw [endTimeGet_fst seg hc]
  
/-- Witness for C5: appending an identical-identity segment to a concrete
single-segment seismogram succeeds with summed sample count and min/max
bounds. -/
theorem c5_append_validation_witness :
    ((mk' [segW2a])._segmentArray.head? = some segW2a) ∧
    (∀ g2 : Seismogram, appendE (mk' [segW2a]) segW2b = Except.ok g2 →
      Seismogram.numPoints g2 =
        Seismogram.numPoints (mk' [segW2a]) + segW2b.numPoints ∧
      g2._startTime = min (mk' [segW2a])._startTime segW2b._startTime ∧
      g2._endTime = max (mk' [segW2a])._endTime (endTimePure segW2b)) :=
  ⟨rfl, (c5_append_validation (mk' [segW2a]) segW2b segW2a rfl (by decide)).2⟩

/-- C1 (amended): `merge()` returns a typed array of the first segment's
numeric width whose length is `numPoints`; when every segment's decoded
array has that same width (its values being representable at that width,
as real typed-array contents are), the contents are exactly the
concatenation, in segment order, of every segment's samples. -/
theorem c1_merge_concatenation (g : Seismogram)
    (hdec : ∀ s ∈ g._segmentArray, Decoded s)
    (hw : ∀ s ∈ g._segmentArray,
      (yArr s).width = (yArr (g._segmentArray.headD dfltSeg)).width)
    (hv : ∀ s ∈ g._segmentArray, ∀ v ∈ (yArr s).data,
      storeCast (yArr (g._segmentArray.headD dfltSeg)).width v = v) :
    Seismogram.merge g =
      ⟨(yArr (g._segmentArray.headD dfltSeg)).width,
       g._segmentArray.flatMap (fun s => (yArr s).data)⟩ ∧
    (Seismogram.merge g).data.length = Seismogram.numPoints g := by
  have hmain : Seismogram.merge g =
      ⟨(yArr (g._segmentArray.headD dfltSeg)).width,
       g._segmentArray.flatMap (fun s => (yArr s).data)⟩ := by
    unfold Seismogram.merge
    dsimp only
    congr 1
    rw [List.flatMap_def, List.flatMap_def]
    congr 1
    apply List.map_congr_left
    intro s hs
    conv_rhs => rw [← List.map_id ((yArr s).data)]
    exact List.map_congr_left (fun v hv2 => hv s hs v hv2)
  refine ⟨hmain, ?_⟩
  rw [hmain]
  show (g._segmentArray.flatMap (fun s => (yArr s).data)).length =
    Seismogram.numPoints g
  rw [List.length_flatMap]
  unfold Seismogram.numPoints
  rw [foldl_add_eq_sum (fun s : SeismogramSegment => s.numPoints) _ 0,
    zero_add]
  congr 1
  apply List.map_congr_left
  intro s hs
  exact (numPoints_decoded s (hdec s hs)).symm

/-- Witness for C1 at a concrete uniform-width seismogram. -/
theorem c1_merge_concatenation_witness :
    (∀ s ∈ (mk' [segW2a, segW2b])._segmentArray, Decoded s) ∧
    Seismogram.merge (mk' [segW2a, segW2b]) =
      ⟨(yArr ((mk' [segW2a, segW2b])._segmentArray.headD dfltSeg)).width,
       (mk' [segW2a, segW2b])._segmentArray.flatMap (fun s => (yArr s).data)⟩ :=
  ⟨by decide,
   (c1_merge_concatenation (mk' [segW2a, segW2b]) (by decide) (by decide)
     (by decide)).1⟩

/-- First segment of the C1 counterexample input: an `Int32Array`. -/
def segC1a : SeismogramSegment :=
  { segW2a with _y := some ⟨Width.i32, [0]⟩ }

/-- Second segment of the C1 counterexample input: a `Float64Array`
holding 1.5, a different numeric width than the first segment's. -/
def segC1b : SeismogramSegment :=
  { segW2a with _y := some ⟨Width.f64, [3/2]⟩, _startTime := 1 }

/-- The mixed-width seismogram refuting the failure clause of C1. -/
def gC1 : Seismogram := mk' [segC1a, segC1b]

/-- C1 counterexample: on a seismogram whose second segment's width
(`Float64Array`) differs from the first's (`Int32Array`), `merge()` does
not fail: it returns an `Int32Array` result in which the Float64 value 1.5
has been silently coerced to 1.  The claim's assertion that `merge()`
fails with an error when segment widths differ is therefore false. -/
theorem c1_merge_counterexample :
    Seismogram.merge gC1 = ⟨Width.i32, [0, 1]⟩ ∧ ((3 : ℚ)/2 ≠ 1) := by
  constructor
  · show Seismogram.merge (mk' [segC1a, segC1b]) = ⟨Width.i32, [0, 1]⟩
    unfold Seismogram.merge mk'
    norm_num [segC1a, segC1b, segW2a, yArr, storeCast, toInt32, ratTrunc]
  · norm_num

/-! ## Analysis of `cut` (claim C3) -/

namespace SeismogramSegment

/-- The start index `cut` computes:
`floor(elapsedMillis * sampleRate / 1000)` past the segment start, else 0. -/
def cutSIdx (s : SeismogramSegment) (w : TimeWindow) : ℤ :=
  if w.startTime > s._startTime then
    Int.floor ((w.startTime - s._startTime) * 1000 * s._sampleRate / 1000)
  else 0

/-- The end index `cut` computes: the sample count minus the floored
offset of the window end from the data end, else the sample count. -/
def cutEIdx (s : SeismogramSegment) (w : TimeWindow) : ℤ :=
  if w.endTime < endTimePure s then
    ((yArr s).data.length : ℤ) -
      Int.floor ((endTimePure s - w.endTime) * 1000 * s._sampleRate / 1000)
  else ((yArr s).data.length : ℤ)

/-- The segment `cut` returns when the window overlaps the data range. -/
def cutResult (s : SeismogramSegment) (w : TimeWindow) : SeismogramSegment :=
  cloneWithNewData s
    ⟨(yArr s).width, jsSlice (yArr s).data (cutSIdx s w) (cutEIdx s w)⟩
    (s._startTime + ((cutSIdx s w : ℚ)) / s._sampleRate)

theorem cut_eq_some (s : SeismogramSegment) (w : TimeWindow)
    (h : ¬(w.endTime < s._startTime ∨ w.startTime > endTimePure s)) :
    cut s w = some (cutResult s w) := by
  unfold cut cutResult cutSIdx cutEIdx
  rw [if_neg h]

theorem cut_eq_none (s : SeismogramSegment) (w : TimeWindow)
    (h : w.endTime < s._startTime ∨ w.startTime > endTimePure s) :
    cut s w = none := by
  unfold cut
  rw [if_pos h]

/-- Every non-null result of `cut` is `cutResult`. -/
theorem cut_some_inv (s : SeismogramSegment) (w : TimeWindow)
    (s' : SeismogramSegment) (h : cut s w = some s') :
    ¬(w.endTime < s._startTime ∨ w.startTime > endTimePure s) ∧
      s' = cutResult s w := by
  by_cases hg : w.endTime < s._startTime ∨ w.startTime > endTimePure s
  · rw [cut_eq_none s w hg] at h
    cases h
  · rw [cut_eq_some s w hg] at h
    injection h with h
    exact ⟨hg, h.symm⟩

theorem mille (x r : ℚ) : x * 1000 * r / 1000 = x * r := by ring

theorem cutSIdx_def (s : SeismogramSegment) (w : TimeWindow) :
    cutSIdx s w =
      if w.startTime > s._startTime then
        Int.floor ((w.startTime - s._startTime) * s._sampleRate)
      else 0 := by
  unfold cutSIdx
  rw [mille]

theorem cutEIdx_def (s : SeismogramSegment) (w : TimeWindow) :
    cutEIdx s w =
      if w.endTime < endTimePure s then
        ((yArr s).data.length : ℤ) -
          Int.floor ((endTimePure s - w.endTime) * s._sampleRate)
      else ((yArr s).data.length : ℤ) := by
  unfold cutEIdx
  rw [mille]

@[simp]
theorem cutResult_startTime (s : SeismogramSegment) (w : TimeWindow) :
    (cutResult s w)._startTime =
      s._startTime + ((cutSIdx s w : ℚ)) / s._sampleRate := rfl

@[simp]
theorem cutResult_sampleRate (s : SeismogramSegment) (w : TimeWindow) :
    (cutResult s w)._sampleRate = s._sampleRate := rfl

@[simp]
theorem cutResult_y (s : SeismogramSegment) (w : TimeWindow) :
    (cutResult s w)._y =
      some ⟨(yArr s).width, jsSlice (yArr s).data (cutSIdx s w) (cutEIdx s w)⟩ :=
  rfl

theorem cutResult_decoded (s : SeismogramSegment) (w : TimeWindow) :
    Decoded (cutResult s w) := rfl

theorem cutResult_yArr (s : SeismogramSegment) (w : TimeWindow) :
    yArr (cutResult s w) =
      ⟨(yArr s).width, jsSlice (yArr s).data (cutSIdx s w) (cutEIdx s w)⟩ :=
  rfl

theorem cutResult_numPoints (s : SeismogramSegment) (w : TimeWindow) :
    (cutResult s w).numPoints =
      (jsSlice (yArr s).data (cutSIdx s w) (cutEIdx s w)).length := rfl

end SeismogramSegment

theorem jsSliceIdx_le (len : ℕ) (i : ℤ) : jsSliceIdx len i ≤ len := by
  unfold jsSliceIdx
  split
  · omega
  · omega

theorem jsSliceIdx_of_nonneg (len : ℕ) (i : ℤ) (h0 : 0 ≤ i) (hle : i ≤ len) :
    jsSliceIdx len i = i.toNat := by
  unfold jsSliceIdx
  rw [if_neg (not_lt.mpr h0)]
  omega

theorem jsSlice_length (l : List ℚ) (a b : ℤ) :
    (jsSlice l a b).length = jsSliceIdx l.length b - jsSliceIdx l.length a := by
  unfold jsSlice
  rw [List.length_drop, List.length_take]
  have := jsSliceIdx_le l.length b
  omega

theorem jsSlice_full (l : List ℚ) : jsSlice l 0 (l.length : ℤ) = l := by
  unfold jsSlice
  rw [jsSliceIdx_of_nonneg l.length 0 le_rfl (by omega),
    jsSliceIdx_of_nonneg l.length (l.length : ℤ) (by omega) le_rfl]
  simp

namespace SeismogramSegment

theorem endTimePure_decoded (s : SeismogramSegment) (hdec : Decoded s) :
    endTimePure s =
      s._startTime + (((yArr s).data.length : ℚ) - 1) / s._sampleRate := by
  unfold endTimePure
  rw [timeOfSample_cast, numPoints_decoded s hdec]

/-- The identity (E - st) * r = n - 1 for a decoded segment with positive rate. -/
theorem endTimePure_sub_mul (s : SeismogramSegment) (hdec : Decoded s)
    (hr : 0 < s._sampleRate) :
    (endTimePure s - s._startTime) * s._sampleRate =
      ((yArr s).data.length : ℚ) - 1 := by
  rw [endTimePure_decoded s hdec]
  field_simp
  ring

theorem cutSIdx_nonneg (s : SeismogramSegment) (w : TimeWindow)
    (hr : 0 < s._sampleRate) : 0 ≤ cutSIdx s w := by
  rw [cutSIdx_def]
  by_cases hb : w.startTime > s._startTime
  · rw [if_pos hb]
    apply Int.floor_nonneg.mpr
    have h0 : 0 ≤ w.startTime - s._startTime := by linarith
    exact mul_nonneg h0 (le_of_lt hr)
  · rw [if_neg hb]

theorem cutSIdx_le (s : SeismogramSegment) (w : TimeWindow)
    (hdec : Decoded s) (hr : 0 < s._sampleRate)
    (hwsE : w.startTime ≤ endTimePure s)
    (hn : 1 ≤ (yArr s).data.length) :
    cutSIdx s w ≤ ((yArr s).data.length : ℤ) - 1 := by
  rw [cutSIdx_def]
  by_cases hb : w.startTime > s._startTime
  · rw [if_pos hb]
    have h1 : (w.startTime - s._startTime) * s._sampleRate ≤
        (endTimePure s - s._startTime) * s._sampleRate := by
      apply mul_le_mul_of_nonneg_right (by linarith) (le_of_lt hr)
    rw [endTimePure_sub_mul s hdec hr] at h1
    have h2 : (((yArr s).data.length : ℚ) - 1) =
        (((yArr s).data.length : ℤ) - 1 : ℤ) := by push_cast; ring
    have h3 := Int.floor_le_floor (le_trans (le_refl _) h1)
    rw [h2, Int.floor_intCast] at h3
    exact h3
  · rw [if_neg hb]
    omega

theorem cutEIdx_le (s : SeismogramSegment) (w : TimeWindow)
    (hr : 0 < s._sampleRate) :
    cutEIdx s w ≤ ((yArr s).data.length : ℤ) := by
  rw [cutEIdx_def]
  by_cases hb : w.endTime < endTimePure s
  · rw [if_pos hb]
    have h0 : 0 ≤ ⌊(endTimePure s - w.endTime) * s._sampleRate⌋ := by
      apply Int.floor_nonneg.mpr
      have : 0 ≤ endTimePure s - w.endTime := by linarith
      exact mul_nonneg this (le_of_lt hr)
    omega
  · rw [if_neg hb]

theorem cutEIdx_pos (s : SeismogramSegment) (w : TimeWindow)
    (hdec : Decoded s) (hr : 0 < s._sampleRate)
    (hstwe : s._startTime ≤ w.endTime)
    (hn : 1 ≤ (yArr s).data.length) :
    1 ≤ cutEIdx s w := by
  rw [cutEIdx_def]
  by_cases hb : w.endTime < endTimePure s
  · rw [if_pos hb]
    have h1 : (endTimePure s - w.endTime) * s._sampleRate ≤
        (endTimePure s - s._startTime) * s._sampleRate := by
      apply mul_le_mul_of_nonneg_right (by linarith) (le_of_lt hr)
    rw [endTimePure_sub_mul s hdec hr] at h1
    have h2 : (((yArr s).data.length : ℚ) - 1) =
        (((yArr s).data.length : ℤ) - 1 : ℤ) := by push_cast; ring
    have h3 := Int.floor_le_floor h1
    rw [h2, Int.floor_intCast] at h3
    omega
  · rw [if_neg hb]
    omega

/-- With an ordered, overlapping window the kept index range is nonempty:
`cutSIdx < cutEIdx`. -/
theorem cutSIdx_lt_cutEIdx (s : SeismogramSegment) (w : TimeWindow)
    (hdec : Decoded s) (hr : 0 < s._sampleRate)
    (hwswe : w.startTime ≤ w.endTime)
    (hstwe : s._startTime ≤ w.endTime)
    (hwsE : w.startTime ≤ endTimePure s)
    (hn : 1 ≤ (yArr s).data.length) :
    cutSIdx s w < cutEIdx s w := by
  rw [cutSIdx_def, cutEIdx_def]
  by_cases hb1 : w.startTime > s._startTime
  · by_cases hb2 : w.endTime < endTimePure s
    · rw [if_pos hb1, if_pos hb2]
      have hsum : (w.startTime - s._startTime) * s._sampleRate +
          (endTimePure s - w.endTime) * s._sampleRate ≤
          (((yArr s).data.length : ℚ) - 1) := by
        have hle : (w.startTime - s._startTime) +
            (endTimePure s - w.endTime) ≤ endTimePure s - s._startTime := by
          linarith
        calc (w.startTime - s._startTime) * s._sampleRate +
              (endTimePure s - w.endTime) * s._sampleRate
            = ((w.startTime - s._startTime) +
                (endTimePure s - w.endTime)) * s._sampleRate := by ring
          _ ≤ (endTimePure s - s._startTime) * s._sampleRate :=
              mul_le_mul_of_nonneg_right hle (le_of_lt hr)
          _ = ((yArr s).data.length : ℚ) - 1 := endTimePure_sub_mul s hdec hr
      have hfl : (⌊(w.startTime - s._startTime) * s._sampleRate⌋ : ℚ) +
          (⌊(endTimePure s - w.endTime) * s._sampleRate⌋ : ℚ) ≤
          (((yArr s).data.length : ℚ) - 1) := by
        have f1 := Int.floor_le ((w.startTime - s._startTime) * s._sampleRate)
        have f2 := Int.floor_le ((endTimePure s - w.endTime) * s._sampleRate)
        linarith
      have hflz : ⌊(w.startTime - s._startTime) * s._sampleRate⌋ +
          ⌊(endTimePure s - w.endTime) * s._sampleRate⌋ ≤
          ((yArr s).data.length : ℤ) - 1 := by
        exact_mod_cast hfl
      omega
    · rw [if_pos hb1, if_neg hb2]
      have := cutSIdx_le s w hdec hr hwsE hn
      rw [cutSIdx_def, if_pos hb1] at this
      omega
  · by_cases hb2 : w.endTime < endTimePure s
    · rw [if_neg hb1, if_pos hb2]
      have h1 : (endTimePure s - w.endTime) * s._sampleRate ≤
          (endTimePure s - s._startTime) * s._sampleRate := by
        apply mul_le_mul_of_nonneg_right (by linarith) (le_of_lt hr)
      rw [endTimePure_sub_mul s hdec hr] at h1
      have h2 : (((yArr s).data.length : ℚ) - 1) =
          (((yArr s).data.length : ℤ) - 1 : ℤ) := by push_cast; ring
      have h3 := Int.floor_le_floor h1
      rw [h2, Int.floor_intCast] at h3
      omega
    · rw [if_neg hb1, if_neg hb2]
      omega

end SeismogramSegment

namespace SeismogramSegment

/-- Sample count of the cut result, as the index-range width. -/
theorem cutResult_numPoints_int (s : SeismogramSegment) (w : TimeWindow)
    (h0 : 0 ≤ cutSIdx s w)
    (hse : cutSIdx s w ≤ cutEIdx s w)
    (he : cutEIdx s w ≤ ((yArr s).data.length : ℤ)) :
    ((cutResult s w).numPoints : ℤ) = cutEIdx s w - cutSIdx s w := by
  rw [cutResult_numPoints, jsSlice_length,
    jsSliceIdx_of_nonneg _ _ h0 (le_trans hse he),
    jsSliceIdx_of_nonneg _ _ (le_trans h0 hse) he]
  omega

/-- End time of the cut result: the time of sample `cutEIdx - 1` of the
original segment. -/
theorem cutResult_endTimePure (s : SeismogramSegment) (w : TimeWindow)
    (h0 : 0 ≤ cutSIdx s w)
    (hse : cutSIdx s w ≤ cutEIdx s w)
    (he : cutEIdx s w ≤ ((yArr s).data.length : ℤ)) :
    endTimePure (cutResult s w) =
      s._startTime + ((cutEIdx s w : ℚ) - 1) / s._sampleRate := by
  rw [endTimePure_decoded (cutResult s w) (cutResult_decoded s w)]
  have hlen : (((yArr (cutResult s w)).data.length : ℤ) : ℚ) =
      ((cutEIdx s w : ℚ) - (cutSIdx s w : ℚ)) := by
    have h1 : ((yArr (cutResult s w)).data.length : ℤ) =
        cutEIdx s w - cutSIdx s w := by
      rw [cutResult_yArr]
      show ((jsSlice (yArr s).data (cutSIdx s w) (cutEIdx s w)).length : ℤ) =
        cutEIdx s w - cutSIdx s w
      rw [jsSlice_length,
        jsSliceIdx_of_nonneg _ _ h0 (le_trans hse he),
        jsSliceIdx_of_nonneg _ _ (le_trans h0 hse) he]
      omega
    rw [h1]
    push_cast
    ring
  rw [cutResult_startTime, cutResult_sampleRate]
  rw [show (((yArr (cutResult s w)).data.length : ℚ)) =
      ((((yArr (cutResult s w)).data.length : ℤ)) : ℚ) by push_cast; rfl]
  rw [hlen]
  rw [add_assoc, div_add_div_same]
  congr 2
  ring

end SeismogramSegment

namespace SeismogramSegment

/-- Re-cutting the cut result computes start index 0: the residual offset
of the window start past the new start time is under one sample period. -/
theorem cutSIdx_cutResult (s : SeismogramSegment) (w : TimeWindow)
    (hr : 0 < s._sampleRate) :
    cutSIdx (cutResult s w) w = 0 := by
  rw [cutSIdx_def]
  by_cases hb : w.startTime > (cutResult s w)._startTime
  · rw [if_pos hb]
    rw [cutResult_startTime] at hb
    rw [cutResult_startTime, cutResult_sampleRate]
    by_cases hb0 : w.startTime > s._startTime
    · apply Int.floor_eq_zero_iff.mpr
      have hfl : (w.startTime - s._startTime) * s._sampleRate <
          (cutSIdx s w : ℚ) + 1 := by
        rw [cutSIdx_def, if_pos hb0]
        exact Int.lt_floor_add_one _
      have hexp : (w.startTime -
          (s._startTime + ((cutSIdx s w : ℚ)) / s._sampleRate)) *
            s._sampleRate =
          (w.startTime - s._startTime) * s._sampleRate -
            (cutSIdx s w : ℚ) := by
        field_simp
        ring
      constructor
      · have h1 : 0 ≤ w.startTime -
            (s._startTime + ((cutSIdx s w : ℚ)) / s._sampleRate) := by
          linarith
        exact mul_nonneg h1 (le_of_lt hr)
      · rw [hexp]
        linarith
    · exfalso
      have hz : cutSIdx s w = 0 := by rw [cutSIdx_def, if_neg hb0]
      rw [hz] at hb
      push_neg at hb0
      simp only [Int.cast_zero, zero_div, add_zero] at hb
      linarith
  · rw [if_neg hb]

/-- Re-cutting the cut result computes the full end index: the residual
offset of the new end time past the window end is under one sample
period. -/
theorem cutEIdx_cutResult (s : SeismogramSegment) (w : TimeWindow)
    (hdec : Decoded s) (hr : 0 < s._sampleRate)
    (h0 : 0 ≤ cutSIdx s w)
    (hse : cutSIdx s w ≤ cutEIdx s w)
    (he : cutEIdx s w ≤ ((yArr s).data.length : ℤ)) :
    cutEIdx (cutResult s w) w =
      ((yArr (cutResult s w)).data.length : ℤ) := by
  rw [cutEIdx_def]
  by_cases hb : w.endTime < endTimePure (cutResult s w)
  · rw [if_pos hb]
    have hE2 := cutResult_endTimePure s w h0 hse he
    have hEst := endTimePure_sub_mul s hdec hr
    by_cases hb0 : w.endTime < endTimePure s
    · have heq : cutEIdx s w = ((yArr s).data.length : ℤ) -
          ⌊(endTimePure s - w.endTime) * s._sampleRate⌋ := by
        rw [cutEIdx_def, if_pos hb0]
      have hcast : ((cutEIdx s w : ℚ)) = (((yArr s).data.length : ℚ)) -
          (⌊(endTimePure s - w.endTime) * s._sampleRate⌋ : ℚ) := by
        rw [heq]; push_cast; ring
      have hfl_le : (⌊(endTimePure s - w.endTime) * s._sampleRate⌋ : ℚ) ≤
          (endTimePure s - w.endTime) * s._sampleRate := Int.floor_le _
      have hfl_lt : (endTimePure s - w.endTime) * s._sampleRate <
          (⌊(endTimePure s - w.endTime) * s._sampleRate⌋ : ℚ) + 1 :=
        Int.lt_floor_add_one _
      have hring : (s._startTime - w.endTime) * s._sampleRate =
          (s._startTime - endTimePure s) * s._sampleRate +
            (endTimePure s - w.endTime) * s._sampleRate := by ring
      have hEst2 : (s._startTime - endTimePure s) * s._sampleRate =
          1 - ((yArr s).data.length : ℚ) := by linarith [hEst]
      have hzero : ⌊(endTimePure (cutResult s w) - w.endTime) *
          (cutResult s w)._sampleRate⌋ = 0 := by
        rw [cutResult_sampleRate, hE2]
        apply Int.floor_eq_zero_iff.mpr
        have hexp : (s._startTime + ((cutEIdx s w : ℚ) - 1) / s._sampleRate -
            w.endTime) * s._sampleRate =
            (s._startTime - w.endTime) * s._sampleRate +
              ((cutEIdx s w : ℚ) - 1) := by
          field_simp
          ring
        constructor
        · rw [hexp, hcast, hring, hEst2]
          linarith
        · rw [hexp, hcast, hring, hEst2]
          linarith
      rw [hzero]
      omega
    · exfalso
      have heq : cutEIdx s w = ((yArr s).data.length : ℤ) := by
        rw [cutEIdx_def, if_neg hb0]
      rw [hE2, heq] at hb
      push_neg at hb0
      rw [endTimePure_decoded s hdec] at hb0
      push_cast at hb
      linarith
  · rw [if_neg hb]

/-- The cut result still satisfies the overlap guard, so re-cutting it
does not return null. -/
theorem cutResult_guard (s : SeismogramSegment) (w : TimeWindow)
    (hdec : Decoded s) (hr : 0 < s._sampleRate)
    (hstwe : s._startTime ≤ w.endTime)
    (hwsE : w.startTime ≤ endTimePure s)
    (hwswe : w.startTime ≤ w.endTime)
    (h0 : 0 ≤ cutSIdx s w)
    (hse : cutSIdx s w ≤ cutEIdx s w)
    (he : cutEIdx s w ≤ ((yArr s).data.length : ℤ)) :
    ¬(w.endTime < (cutResult s w)._startTime ∨
      w.startTime > endTimePure (cutResult s w)) := by
  have hE2 := cutResult_endTimePure s w h0 hse he
  have hEst := endTimePure_sub_mul s hdec hr
  push_neg
  constructor
  · rw [cutResult_startTime]
    by_cases hb : w.startTime > s._startTime
    · have hfl : (cutSIdx s w : ℚ) ≤
          (w.startTime - s._startTime) * s._sampleRate := by
        rw [cutSIdx_def, if_pos hb]
        exact Int.floor_le _
      have hdiv : ((cutSIdx s w : ℚ)) / s._sampleRate ≤
          w.startTime - s._startTime := by
        rw [div_le_iff hr]
        exact hfl
      linarith
    · have hz : cutSIdx s w = 0 := by rw [cutSIdx_def, if_neg hb]
      rw [hz]
      push_neg at hb
      simp only [Int.cast_zero, zero_div, add_zero]
      linarith
  · rw [hE2]
    by_cases hb : w.endTime < endTimePure s
    · have heq : cutEIdx s w = ((yArr s).data.length : ℤ) -
          ⌊(endTimePure s - w.endTime) * s._sampleRate⌋ := by
        rw [cutEIdx_def, if_pos hb]
      have hcast : ((cutEIdx s w : ℚ)) = (((yArr s).data.length : ℚ)) -
          (⌊(endTimePure s - w.endTime) * s._sampleRate⌋ : ℚ) := by
        rw [heq]; push_cast; ring
      have hfl_le : (⌊(endTimePure s - w.endTime) * s._sampleRate⌋ : ℚ) ≤
          (endTimePure s - w.endTime) * s._sampleRate := Int.floor_le _
      have hring : (w.endTime - s._startTime) * s._sampleRate =
          (endTimePure s - s._startTime) * s._sampleRate -
            (endTimePure s - w.endTime) * s._sampleRate := by ring
      have h1 : (w.endTime - s._startTime) * s._sampleRate ≤
          (cutSIdx s w : ℚ) * 0 + ((cutEIdx s w : ℚ) - 1) := by
        rw [hcast]
        linarith [hEst, hfl_le, hring]
      have h2 : w.endTime - s._startTime ≤
          ((cutEIdx s w : ℚ) - 1) / s._sampleRate := by
        rw [le_div_iff hr]
        linarith [h1]
      linarith
    · have heq : cutEIdx s w = ((yArr s).data.length : ℤ) := by
        rw [cutEIdx_def, if_neg hb]
      rw [heq]
      push_cast
      rw [show s._startTime + (((yArr s).data.length : ℚ) - 1) / s._sampleRate
          = endTimePure s from (endTimePure_decoded s hdec).symm]
      exact hwsE

end SeismogramSegment

namespace SeismogramSegment

/-- The cut of an empty segment keeps indices `[0, 0]`. -/
theorem cut_indices_of_empty (s : SeismogramSegment) (w : TimeWindow)
    (hdec : Decoded s) (hr : 0 < s._sampleRate)
    (hstwe : s._startTime ≤ w.endTime)
    (hwsE : w.startTime ≤ endTimePure s)
    (hn0 : (yArr s).data.length = 0) :
    cutSIdx s w = 0 ∧ cutEIdx s w = 0 := by
  have hE : endTimePure s < s._startTime := by
    rw [endTimePure_decoded s hdec, hn0]
    have h1r : 0 < 1 / s._sampleRate := by positivity
    have hneg : ((0:ℕ) - 1 : ℚ) / s._sampleRate = -(1 / s._sampleRate) := by
      push_cast
      ring
    push_cast
    push_cast at hneg
    linarith [hneg]
  constructor
  · rw [cutSIdx_def, if_neg]
    intro hb
    linarith
  · rw [cutEIdx_def, if_neg, hn0]
    · rfl
    · intro hb
      linarith
  
/-- C3 core, segment level: `cut` is idempotent — re-cutting a non-null
cut result with the same window returns it unchanged. -/
theorem cut_idem (s : SeismogramSegment) (w : TimeWindow)
    (hdec : Decoded s) (hr : 0 < s._sampleRate)
    (hwswe : w.startTime ≤ w.endTime)
    (s' : SeismogramSegment) (hcut : cut s w = some s') :
    cut s' w = some s' := by
  obtain ⟨hg, rfl⟩ := cut_some_inv s w s' hcut
  push_neg at hg
  obtain ⟨hstwe, hwsE⟩ := hg
  have h0 : 0 ≤ cutSIdx s w := cutSIdx_nonneg s w hr
  have he : cutEIdx s w ≤ ((yArr s).data.length : ℤ) := cutEIdx_le s w hr
  have hse : cutSIdx s w ≤ cutEIdx s w := by
    by_cases hn : 1 ≤ (yArr s).data.length
    · exact le_of_lt (cutSIdx_lt_cutEIdx s w hdec hr hwswe hstwe hwsE hn)
    · obtain ⟨hi1, hi2⟩ := cut_indices_of_empty s w hdec hr hstwe hwsE (by omega)
      omega
  have hguard2 := cutResult_guard s w hdec hr hstwe hwsE hwswe h0 hse he
  rw [cut_eq_some (cutResult s w) w hguard2]
  congr 1
  have hs2 := cutSIdx_cutResult s w hr
  have he2 := cutEIdx_cutResult s w hdec hr h0 hse he
  show cloneWithNewData (cutResult s w)
      ⟨(yArr (cutResult s w)).width,
       jsSlice (yArr (cutResult s w)).data (cutSIdx (cutResult s w) w)
         (cutEIdx (cutResult s w) w)⟩
      ((cutResult s w)._startTime +
        ((cutSIdx (cutResult s w) w : ℚ)) / (cutResult s w)._sampleRate)
    = cutResult s w
  rw [hs2, he2, jsSlice_full]
  simp only [Int.cast_zero, zero_div, add_zero]
  rfl

end SeismogramSegment

namespace SeismogramSegment

/-- C3 core, segment level: every sample of a non-null cut result lies
within one sample period of the window — strictly after
`w.start - 1/sampleRate` and strictly before `w.end + 1/sampleRate`. -/
theorem cut_sample_bounds (s : SeismogramSegment) (w : TimeWindow)
    (hdec : Decoded s) (hr : 0 < s._sampleRate)
    (s' : SeismogramSegment) (hcut : cut s w = some s')
    (j : ℕ) (hj : j < s'.numPoints) :
    w.startTime - 1 / s._sampleRate < timeOfSample s' (j : ℤ) ∧
    timeOfSample s' (j : ℤ) < w.endTime + 1 / s._sampleRate := by
  obtain ⟨hg, rfl⟩ := cut_some_inv s w s' hcut
  push_neg at hg
  obtain ⟨hstwe, hwsE⟩ := hg
  have h0 := cutSIdx_nonneg s w hr
  have he := cutEIdx_le s w hr
  have hnp : 0 < (cutResult s w).numPoints := lt_of_le_of_lt (Nat.zero_le j) hj
  have hn : 1 ≤ (yArr s).data.length := by
    by_contra hcon
    obtain ⟨hi1, hi2⟩ :=
      cut_indices_of_empty s w hdec hr hstwe hwsE (by omega)
    rw [cutResult_numPoints, jsSlice_length, hi1, hi2] at hnp
    omega
  have hsle := cutSIdx_le s w hdec hr hwsE hn
  have he1 := cutEIdx_pos s w hdec hr hstwe hn
  have hslt : cutSIdx s w < cutEIdx s w := by
    rw [cutResult_numPoints, jsSlice_length,
      jsSliceIdx_of_nonneg _ _ (by omega) he,
      jsSliceIdx_of_nonneg _ _ h0 (by omega)] at hnp
    omega
  have hnpint := cutResult_numPoints_int s w h0 (le_of_lt hslt) he
  have h1r : 0 < 1 / s._sampleRate := by positivity
  have hEst := endTimePure_sub_mul s hdec hr
  have htime : timeOfSample (cutResult s w) (j : ℤ) =
      s._startTime + ((cutSIdx s w : ℚ)) / s._sampleRate +
        (j : ℚ) / s._sampleRate := by
    unfold timeOfSample
    rw [cutResult_sampleRate, cutResult_startTime]
    norm_num
  have hjsum : ((cutSIdx s w : ℚ)) + (j : ℚ) ≤ ((cutEIdx s w : ℚ)) - 1 := by
    have hjz : (j : ℤ) ≤ cutEIdx s w - cutSIdx s w - 1 := by
      have : (j : ℤ) < ((cutResult s w).numPoints : ℤ) := by exact_mod_cast hj
      omega
    have : ((cutSIdx s w : ℤ)) + (j : ℤ) ≤ cutEIdx s w - 1 := by omega
    exact_mod_cast this
  have hsum : ((cutSIdx s w : ℚ)) / s._sampleRate + (j : ℚ) / s._sampleRate ≤
      (((cutEIdx s w : ℚ)) - 1) / s._sampleRate := by
    rw [div_add_div_same]
    exact (div_le_div_iff_of_pos_right hr).mpr hjsum
  constructor
  · rw [htime]
    have hjq : (0 : ℚ) ≤ (j : ℚ) / s._sampleRate := by positivity
    by_cases hb : w.startTime > s._startTime
    · have hfl : (w.startTime - s._startTime) * s._sampleRate <
          (cutSIdx s w : ℚ) + 1 := by
        rw [cutSIdx_def, if_pos hb]
        exact Int.lt_floor_add_one _
      have h2 : w.startTime - s._startTime <
          ((cutSIdx s w : ℚ) + 1) / s._sampleRate := by
        rw [lt_div_iff hr]
        exact hfl
      rw [add_div] at h2
      linarith
    · push_neg at hb
      have hz : cutSIdx s w = 0 := by
        rw [cutSIdx_def, if_neg (not_lt.mpr hb)]
      rw [hz]
      simp only [Int.cast_zero, zero_div, add_zero]
      linarith
  · rw [htime]
    by_cases hb : w.endTime < endTimePure s
    · have heq : cutEIdx s w = ((yArr s).data.length : ℤ) -
          ⌊(endTimePure s - w.endTime) * s._sampleRate⌋ := by
        rw [cutEIdx_def, if_pos hb]
      have hcast : ((cutEIdx s w : ℚ)) = (((yArr s).data.length : ℚ)) -
          (⌊(endTimePure s - w.endTime) * s._sampleRate⌋ : ℚ) := by
        rw [heq]; push_cast; ring
      have hfl_lt : (endTimePure s - w.endTime) * s._sampleRate <
          (⌊(endTimePure s - w.endTime) * s._sampleRate⌋ : ℚ) + 1 :=
        Int.lt_floor_add_one _
      have hring : (endTimePure s - w.endTime) * s._sampleRate =
          (endTimePure s - s._startTime) * s._sampleRate -
            (w.endTime - s._startTime) * s._sampleRate := by ring
      have hkey : ((cutEIdx s w : ℚ)) - 2 <
          (w.endTime - s._startTime) * s._sampleRate := by
        rw [hcast]
        linarith [hEst, hfl_lt, hring]
      have hkey2 : (((cutEIdx s w : ℚ)) - 2) / s._sampleRate <
          w.endTime - s._startTime := by
        rw [div_lt_iff hr]
        exact hkey
      have hsplit : (((cutEIdx s w : ℚ)) - 1) / s._sampleRate =
          (((cutEIdx s w : ℚ)) - 2) / s._sampleRate + 1 / s._sampleRate := by
        rw [div_add_div_same]
        congr 1
        ring
      linarith [hsum, hkey2, hsplit]
    · push_neg at hb
      have heq : cutEIdx s w = ((yArr s).data.length : ℤ) := by
        rw [cutEIdx_def, if_neg (not_lt.mpr hb)]
      have hE : s._startTime + (((cutEIdx s w : ℚ)) - 1) / s._sampleRate =
          endTimePure s := by
        rw [heq]
        push_cast
        rw [endTimePure_decoded s hdec]
      linarith [hsum, hE, hb, h1r]

end SeismogramSegment

theorem filterMap_eq_self_of {α : Type} (l : List α) (f : α → Option α)
    (h : ∀ x ∈ l, f x = some x) : l.filterMap f = l := by
  induction l with
  | nil => rfl
  | cons x xs ih =>
    rw [List.filterMap_cons, h x (List.mem_cons_self x xs)]
    rw [ih (fun y hy => h y (List.mem_cons_of_mem x hy))]

namespace Seismogram

@[simp]
theorem mk'_segs (l : List SeismogramSegment) :
    (mk' l)._segmentArray = l := by
  cases l <;> rfl

/-- The filter predicate `trim` applies to each segment. -/
def trimPred (w : TimeWindow) (d : SeismogramSegment) : Bool :=
  decide (w.startTime < endTimePure d) && decide (d._startTime < w.endTime)

theorem trim_eq (g : Seismogram) (w : TimeWindow) :
    trim g w =
      if (g._segmentArray.filter (trimPred w)).length > 0 then
        some (mk' (g._segmentArray.filter (trimPred w)))
      else none := rfl

/-- A non-null `Seismogram.cut` is the seismogram rebuilt from the
segment-wise cuts, and some segment passed the trim filter. -/
theorem cut_some_inv_seis (g : Seismogram) (w : TimeWindow) (g2 : Seismogram)
    (hcut : Seismogram.cut g w = some g2) :
    (g._segmentArray.filterMap (fun seg => SeismogramSegment.cut seg w) ≠ [] →
      g2 = mk' (g._segmentArray.filterMap
        (fun seg => SeismogramSegment.cut seg w))) ∧
    ∃ d ∈ g._segmentArray, trimPred w d = true := by
  unfold Seismogram.cut at hcut
  cases htrim : trim g w with
  | none =>
    rw [htrim] at hcut
    cases hcut
  | some out =>
    rw [htrim] at hcut
    rw [trim_eq] at htrim
    have hkept : (g._segmentArray.filter (trimPred w)).length > 0 := by
      by_contra hcon
      rw [if_neg hcon] at htrim
      cases htrim
    have hex : ∃ d ∈ g._segmentArray, trimPred w d = true := by
      have hne : g._segmentArray.filter (trimPred w) ≠ [] := by
        intro hnil
        rw [hnil] at hkept
        simp at hkept
      obtain ⟨x, hx⟩ := List.exists_mem_of_ne_nil _ hne
      rw [List.mem_filter] at hx
      exact ⟨x, hx.1, hx.2⟩
    refine ⟨?_, hex⟩
    intro hne
    simp only [] at hcut
    rw [if_pos (by
      cases hfm : g._segmentArray.filterMap
          (fun seg => SeismogramSegment.cut seg w) with
      | nil => exact absurd hfm hne
      | cons a as => simp [hfm])] at hcut
    injection hcut with hcut
    exact hcut.symm

/-- A segment passing the trim filter yields a non-null cut. -/
theorem cut_of_trimPred (d : SeismogramSegment) (w : TimeWindow)
    (h : trimPred w d = true) :
    SeismogramSegment.cut d w = some (SeismogramSegment.cutResult d w) := by
  unfold trimPred at h
  simp only [Bool.and_eq_true, decide_eq_true_eq] at h
  apply SeismogramSegment.cut_eq_some
  push_neg
  exact ⟨le_of_lt h.2, le_of_lt h.1⟩

end Seismogram

namespace SeismogramSegment

/-- The cut of a segment that passed the trim filter passes it again
(for a window of positive length): its end time stays strictly after the
window start, and its start time strictly before the window end. -/
theorem cutResult_kept (d : SeismogramSegment) (w : TimeWindow)
    (hdec : Decoded d) (hr : 0 < d._sampleRate)
    (hk1 : w.startTime < endTimePure d) (hk2 : d._startTime < w.endTime)
    (hwswe : w.startTime < w.endTime) :
    w.startTime < endTimePure (cutResult d w) ∧
    (cutResult d w)._startTime < w.endTime := by
  have hstwe : d._startTime ≤ w.endTime := le_of_lt hk2
  have hwsE : w.startTime ≤ endTimePure d := le_of_lt hk1
  have h0 := cutSIdx_nonneg d w hr
  have he := cutEIdx_le d w hr
  have hse : cutSIdx d w ≤ cutEIdx d w := by
    by_cases hn : 1 ≤ (yArr d).data.length
    · exact le_of_lt
        (cutSIdx_lt_cutEIdx d w hdec hr (le_of_lt hwswe) hstwe hwsE hn)
    · obtain ⟨hi1, hi2⟩ :=
        cut_indices_of_empty d w hdec hr hstwe hwsE (by omega)
      omega
  have hE2 := cutResult_endTimePure d w h0 hse he
  have hEst := endTimePure_sub_mul d hdec hr
  constructor
  · rw [hE2]
    by_cases hb : w.endTime < endTimePure d
    · have heq : cutEIdx d w = ((yArr d).data.length : ℤ) -
          ⌊(endTimePure d - w.endTime) * d._sampleRate⌋ := by
        rw [cutEIdx_def, if_pos hb]
      have hcast : ((cutEIdx d w : ℚ)) = (((yArr d).data.length : ℚ)) -
          (⌊(endTimePure d - w.endTime) * d._sampleRate⌋ : ℚ) := by
        rw [heq]; push_cast; ring
      have hfl_le : (⌊(endTimePure d - w.endTime) * d._sampleRate⌋ : ℚ) ≤
          (endTimePure d - w.endTime) * d._sampleRate := Int.floor_le _
      have hring : (endTimePure d - w.endTime) * d._sampleRate =
          (endTimePure d - d._startTime) * d._sampleRate -
            (w.endTime - d._startTime) * d._sampleRate := by ring
      have hkey : (w.endTime - d._startTime) * d._sampleRate ≤
          ((cutEIdx d w : ℚ)) - 1 := by
        rw [hcast]
        linarith [hEst, hfl_le, hring]
      have hkey2 : w.endTime - d._startTime ≤
          (((cutEIdx d w : ℚ)) - 1) / d._sampleRate := by
        rw [le_div_iff₀ hr]
        exact hkey
      linarith
    · push_neg at hb
      have heq : cutEIdx d w = ((yArr d).data.length : ℤ) := by
        rw [cutEIdx_def, if_neg (not_lt.mpr hb)]
      have hEeq : d._startTime + (((cutEIdx d w : ℚ)) - 1) / d._sampleRate =
          endTimePure d := by
        rw [heq]
        push_cast
        rw [endTimePure_decoded d hdec]
      linarith [hk1, hEeq]
  · rw [cutResult_startTime]
    by_cases hb : w.startTime > d._startTime
    · have hfl : (cutSIdx d w : ℚ) ≤
          (w.startTime - d._startTime) * d._sampleRate := by
        rw [cutSIdx_def, if_pos hb]
        exact Int.floor_le _
      have hdiv : ((cutSIdx d w : ℚ)) / d._sampleRate ≤
          w.startTime - d._startTime := by
        rw [div_le_iff₀ hr]
        exact hfl
      linarith
    · have hz : cutSIdx d w = 0 := by rw [cutSIdx_def, if_neg hb]
      rw [hz]
      simp only [Int.cast_zero, zero_div, add_zero]
      exact hk2

end SeismogramSegment

namespace Seismogram

/-- C3 core, seismogram level: for a positive-length window,
`Seismogram.cut` is idempotent on its non-null results. -/
theorem seis_cut_idem (g : Seismogram) (w : TimeWindow) (g2 : Seismogram)
    (hsegs : ∀ s ∈ g._segmentArray, s.Decoded ∧ 0 < s._sampleRate)
    (hwswe : w.startTime < w.endTime)
    (hcut : Seismogram.cut g w = some g2) :
    Seismogram.cut g2 w = some g2 := by
  obtain ⟨hmk, d, hd_mem, hd_pred⟩ := cut_some_inv_seis g w g2 hcut
  obtain ⟨hd_dec, hd_r⟩ := hsegs d hd_mem
  have hd_cut := cut_of_trimPred d w hd_pred
  have hd_predP : w.startTime < SeismogramSegment.endTimePure d ∧
      d._startTime < w.endTime := by
    unfold trimPred at hd_pred
    simpa using hd_pred
  have hd'_mem : SeismogramSegment.cutResult d w ∈
      g._segmentArray.filterMap (fun seg => SeismogramSegment.cut seg w) :=
    List.mem_filterMap.mpr ⟨d, hd_mem, hd_cut⟩
  have hne : g._segmentArray.filterMap
      (fun seg => SeismogramSegment.cut seg w) ≠ [] := by
    intro hnil
    rw [hnil] at hd'_mem
    cases hd'_mem
  have hg2 := hmk hne
  have hg2segs : g2._segmentArray =
      g._segmentArray.filterMap (fun seg => SeismogramSegment.cut seg w) := by
    rw [hg2, mk'_segs]
  have hd'_kept := SeismogramSegment.cutResult_kept d w hd_dec hd_r
    hd_predP.1 hd_predP.2 hwswe
  have hd'_pred : trimPred w (SeismogramSegment.cutResult d w) = true := by
    unfold trimPred
    simp only [Bool.and_eq_true, decide_eq_true_eq]
    exact hd'_kept
  have hmem_elems : ∀ s' ∈ g2._segmentArray,
      SeismogramSegment.cut s' w = some s' := by
    intro s' hs'
    rw [hg2segs] at hs'
    obtain ⟨d2, hd2_mem, hd2_cut⟩ := List.mem_filterMap.mp hs'
    obtain ⟨hd2_dec, hd2_r⟩ := hsegs d2 hd2_mem
    exact SeismogramSegment.cut_idem d2 w hd2_dec hd2_r (le_of_lt hwswe)
      s' hd2_cut
  unfold Seismogram.cut
  have htrim2 : trim g2 w =
      some (mk' (g2._segmentArray.filter (trimPred w))) := by
    rw [trim_eq]
    rw [if_pos]
    have : SeismogramSegment.cutResult d w ∈
        g2._segmentArray.filter (trimPred w) := by
      rw [List.mem_filter]
      exact ⟨by rw [hg2segs]; exact hd'_mem, hd'_pred⟩
    cases hfil : g2._segmentArray.filter (trimPred w) with
    | nil => rw [hfil] at this; cases this
    | cons a as => simp [hfil]
  rw [htrim2]
  simp only []
  rw [filterMap_eq_self_of g2._segmentArray _ hmem_elems]
  have hg2ne : g2._segmentArray ≠ [] := by
    rw [hg2segs]
    exact hne
  rw [if_pos (by
    cases hg2a : g2._segmentArray with
    | nil => exact absurd hg2a hg2ne
    | cons a as => simp [hg2a])]
  congr 1
  rw [hg2segs, hg2]

end Seismogram

/-- C3 (amended): `cut` is idempotent — at segment level re-cutting a
non-null result with the same (ordered) window returns it unchanged, and
at seismogram level likewise for positive-length windows — and every
sample of a segment's cut result lies within one sample period of the
window: strictly after `w.start - 1/sampleRate` and strictly before
`w.end + 1/sampleRate` (not, as claimed, inside `[w.start, w.end]`:
floor-based indexing can keep up to one sample on each side). -/
theorem c3_cut_idempotent_and_bounds :
    (∀ (s : SeismogramSegment) (w : TimeWindow) (s' : SeismogramSegment),
      s.Decoded → 0 < s._sampleRate → w.startTime ≤ w.endTime →
      SeismogramSegment.cut s w = some s' →
      SeismogramSegment.cut s' w = some s') ∧
    (∀ (s : SeismogramSegment) (w : TimeWindow) (s' : SeismogramSegment)
       (j : ℕ),
      s.Decoded → 0 < s._sampleRate →
      SeismogramSegment.cut s w = some s' → j < s'.numPoints →
      w.startTime - 1 / s._sampleRate <
        SeismogramSegment.timeOfSample s' (j : ℤ) ∧
      SeismogramSegment.timeOfSample s' (j : ℤ) <
        w.endTime + 1 / s._sampleRate) ∧
    (∀ (g : Seismogram) (w : TimeWindow) (g2 : Seismogram),
      (∀ x ∈ g._segmentArray, x.Decoded ∧ 0 < x._sampleRate) →
      w.startTime < w.endTime →
      Seismogram.cut g w = some g2 → Seismogram.cut g2 w = some g2) :=
  ⟨fun s w s' h1 h2 h3 h4 => SeismogramSegment.cut_idem s w h1 h2 h3 s' h4,
   fun s w s' j h1 h2 h3 h4 =>
     SeismogramSegment.cut_sample_bounds s w h1 h2 s' h3 j h4,
   fun g w g2 h1 h2 h3 => Seismogram.seis_cut_idem g w g2 h1 h2 h3⟩

/-- A window starting at the data start and ending past the data end. -/
def winW3 : TimeWindow := ⟨0, 5⟩

/-- Cutting `segW2a` with `winW3` keeps the whole segment. -/
theorem cut_segW2a_winW3 :
    SeismogramSegment.cut segW2a winW3 = some segW2a := by
  rw [SeismogramSegment.cut_eq_some segW2a winW3 (by
    norm_num [winW3, SeismogramSegment.endTimePure, segW2a,
      SeismogramSegment.timeOfSample, SeismogramSegment.numPoints])]
  congr 1
  unfold SeismogramSegment.cutResult SeismogramSegment.cloneWithNewData
  rw [SeismogramSegment.cutSIdx_def, SeismogramSegment.cutEIdx_def]
  norm_num [winW3, segW2a, SeismogramSegment.endTimePure,
    SeismogramSegment.timeOfSample, SeismogramSegment.numPoints,
    SeismogramSegment.yArr, jsSlice, jsSliceIdx]

/-- Witness for C3: re-cutting the concrete cut result returns it
unchanged. -/
theorem c3_cut_idempotent_and_bounds_witness :
    Decoded segW2a ∧ 0 < segW2a._sampleRate ∧
    winW3.startTime ≤ winW3.endTime ∧
    SeismogramSegment.cut segW2a winW3 = some segW2a :=
  ⟨by decide, by decide, by decide,
   c3_cut_idempotent_and_bounds.1 segW2a winW3 segW2a (by decide) (by decide)
     (by decide) cut_segW2a_winW3⟩

/-- Four samples at 1 Hz starting at t = 0. -/
def segC3 : SeismogramSegment :=
  { segW2a with _y := some ⟨Width.i32, [10, 20, 30, 40]⟩ }

/-- A window from t = 1/2 to t = 5/2, between sample times. -/
def winC3 : TimeWindow := ⟨1/2, 5/2⟩

/-- C3 counterexample: cutting the 4-sample segment with the window
`[1/2, 5/2]` returns all four samples unchanged, so the result contains
the sample at time 0, strictly before the window start (and the sample at
time 3, strictly after the window end) — refuting the claim that `cut`
never returns samples outside `[w.start, w.end]`. -/
theorem c3_cut_counterexample :
    SeismogramSegment.cut segC3 winC3 = some segC3 ∧
    SeismogramSegment.timeOfSample segC3 0 = 0 ∧
    0 < segC3.numPoints ∧
    (0 : ℚ) < winC3.startTime ∧
    SeismogramSegment.timeOfSample segC3 3 = 3 ∧
    3 < segC3.numPoints ∧
    winC3.endTime < 3 := by
  refine ⟨?_, ?_, ?_, ?_, ?_, ?_, ?_⟩
  · rw [SeismogramSegment.cut_eq_some segC3 winC3 (by
      norm_num [winC3, SeismogramSegment.endTimePure, segC3, segW2a,
        SeismogramSegment.timeOfSample, SeismogramSegment.numPoints])]
    congr 1
    unfold SeismogramSegment.cutResult SeismogramSegment.cloneWithNewData
    rw [SeismogramSegment.cutSIdx_def, SeismogramSegment.cutEIdx_def]
    norm_num [winC3, segC3, segW2a, SeismogramSegment.endTimePure,
      SeismogramSegment.timeOfSample, SeismogramSegment.numPoints,
      SeismogramSegment.yArr, jsSlice, jsSliceIdx]
  · norm_num [SeismogramSegment.timeOfSample, segC3, segW2a]
  · decide
  · norm_num [winC3]
  · norm_num [SeismogramSegment.timeOfSample, segC3, segW2a]
  · decide
  · norm_num [winC3]
